import Mathlib

/-!
Verification of the OpenMP parallel-maximum / parallel-prefix-sum repository.

The two source files `parallel_maximum.cpp` and `prefix_sum_scan.cpp` are
shallowly embedded below.  C++ `vector<int>` becomes `List Int`, indexed
access `v[i]` becomes `List.getD v i 0`, and every `for`/`while` loop becomes
a structurally recursive function over an explicit fuel counter that bounds
the number of iterations (the fuel is always chosen at the call site to be at
least the number of iterations the C++ loop performs, and each recursive
function re-checks the loop condition exactly as the C++ loop does, so
exhausting the fuel never cuts a loop short).  All functions are executable,
so concrete runs of the embedded program can be checked by `decide` / `rfl`.

C++ `int` values are modelled as unbounded `Int`; the algorithms use only
`+` and `max`, for which the embedded computations agree with the 32-bit
wrap-around computations of the machine whenever the latter do not overflow,
and the claims under study compare two computations built from the same
operations.  `INT_MIN` is the literal `-(2^31)` used by the sources via
`<climits>`.

OpenMP `parallel for` loops in these sources only have iterations whose
read/write index sets are pairwise disjoint (proved below as claim C6), so
their deterministic denotation is the sequential execution of the loop body
over the iteration space in index order; the embedding uses that denotation.
-/

/-- `INT_MIN` from `<climits>`, the initial accumulator of the maximum
reductions in `parallel_maximum.cpp`. -/
def INT_MIN : Int := -(2 ^ 31)

/-- Embedding of the plain maximum loop
`for (i = i0; i < e; i++) if (arr[i] > m) m = arr[i];` that appears verbatim
in `sequential_max` (parallel_maximum.cpp lines 149-153), in
`parallel_max_reduction` (lines 32-36) and as the per-chunk loop of
`parallel_max_sections` (lines 87-91).  First argument of the recursion is
the fuel. -/
def maxLoopIter (arr : List Int) (e : Nat) : Nat → Nat → Int → Int
  | 0, _, m => m
  | f + 1, i, m =>
    if i < e then
      maxLoopIter arr e f (i + 1) (if arr.getD i 0 > m then arr.getD i 0 else m)
    else m

/-- `sequential_max` of parallel_maximum.cpp (lines 147-155): a left-to-right
maximum fold starting from `INT_MIN`. -/
def sequential_max (arr : List Int) (n : Nat) : Int :=
  maxLoopIter arr n n 0 INT_MIN

/-- `parallel_max_reduction` of parallel_maximum.cpp (lines 28-39): the
OpenMP `reduction(max:...)` loop.  Its deterministic denotation is the same
index-order fold as the sequential loop (the `max` reduction is associative
and commutative, so any OpenMP partition yields this value). -/
def parallel_max_reduction (arr : List Int) (n : Nat) : Int :=
  maxLoopIter arr n n 0 INT_MIN

/-- Embedding of one tree-reduction level
`for (i = 0; i < n; i += 2*stride) if (i + stride < n) temp[i] = max(temp[i], temp[i+stride]);`
shared by `parallel_max_tree_reduction` (parallel_maximum.cpp lines 56-61)
and `parallel_max_explicit_barriers` (lines 125-130).  The stride is passed
as `s + 1` so that it is positive by construction (`s = stride - 1`). -/
def treeLevelIter (n s : Nat) : Nat → Nat → List Int → List Int
  | 0, _, temp => temp
  | f + 1, i, temp =>
    if i < n then
      treeLevelIter n s f (i + 2 * (s + 1))
        (if i + (s + 1) < n then
          temp.set i (max (temp.getD i 0) (temp.getD (i + (s + 1)) 0))
        else temp)
    else temp

/-- The `while (stride < n) { level; stride *= 2; }` loop of
`parallel_max_tree_reduction` (parallel_maximum.cpp lines 52-64); the current
stride is `s + 1`, so doubling maps `s` to `2*s + 1`. -/
def treeReduceIter (n : Nat) : Nat → Nat → List Int → List Int
  | 0, _, temp => temp
  | f + 1, s, temp =>
    if s + 1 < n then
      treeReduceIter n f (2 * s + 1) (treeLevelIter n s n 0 temp)
    else temp

/-- `parallel_max_tree_reduction` of parallel_maximum.cpp (lines 49-67):
copies the argument into a working array `temp`, runs the stride-doubling
tree reduction on `temp`, and returns `temp[0]`. -/
def parallel_max_tree_reduction (arr : List Int) (n : Nat) : Int :=
  (treeReduceIter n n 0 arr).getD 0 0

/-- The level-counting loop of `parallel_max_explicit_barriers`
(parallel_maximum.cpp lines 111-116):
`while (temp_n > 1) { temp_n = (temp_n + 1) / 2; levels++; }`. -/
def levelsIter : Nat → Nat → Nat → Nat
  | 0, _, acc => acc
  | f + 1, m, acc => if 1 < m then levelsIter f ((m + 1) / 2) (acc + 1) else acc

/-- The number of synchronization levels reported by
`parallel_max_explicit_barriers` for input size `n`. -/
def levels_count (n : Nat) : Nat :=
  levelsIter n n 0

/-- The leveled loop of `parallel_max_explicit_barriers`
(parallel_maximum.cpp lines 121-139): level `level` uses
`stride = 2^level` and `step = 2*stride`; `k` is the number of levels still
to run. -/
def barriersLevels (n : Nat) : Nat → Nat → List Int → List Int
  | _, 0, temp => temp
  | level, k + 1, temp =>
    barriersLevels n (level + 1) k (treeLevelIter n (2 ^ level - 1) n 0 temp)

/-- `parallel_max_explicit_barriers` of parallel_maximum.cpp (lines
107-142): copies the argument into `temp`, runs `levels_count n` tree levels
with strides `1, 2, 4, ...`, and returns `temp[0]`. -/
def parallel_max_explicit_barriers (arr : List Int) (n : Nat) : Int :=
  (barriersLevels n 0 (levels_count n) arr).getD 0 0

/-- The per-chunk partial maximum computed by thread `tid` in
`parallel_max_sections` (parallel_maximum.cpp lines 79-92). -/
def sectionsChunkMax (arr : List Int) (n chunk tid : Nat) : Int :=
  maxLoopIter arr (min (tid * chunk + chunk) n) n (tid * chunk) INT_MIN

/-- `parallel_max_sections` of parallel_maximum.cpp (lines 75-101) with
worker count `w` (the source reads `omp_get_max_threads()`): each thread
computes the maximum of its chunk of size `ceil(n / w)` starting from
`INT_MIN`, and the partial maxima are folded sequentially with `max`. -/
def parallel_max_sections (arr : List Int) (n w : Nat) : Int :=
  let chunk := (n + w - 1) / w
  let pmaxs := (List.range w).map (fun tid => sectionsChunkMax arr n chunk tid)
  pmaxs.foldl max INT_MIN

/-- Call-shaped embedding of `parallel_max_tree_reduction`: the function
takes `vector<int>& arr` by reference, so the embedding also returns the
state of the referenced vector when the call returns.  The body copies `arr`
into the local `temp` (line 50) and every assignment in the body targets
`temp`, so the referenced vector is returned as received. -/
def parallel_max_tree_reduction_call (arr : List Int) (n : Nat) : Int × List Int :=
  let temp := arr
  ((treeReduceIter n n 0 temp).getD 0 0, arr)

/-- Call-shaped embedding of `parallel_max_explicit_barriers` (by-reference
argument returned as the final state of the caller's vector); the body
mutates only the local copy `temp` (line 108). -/
def parallel_max_explicit_barriers_call (arr : List Int) (n : Nat) : Int × List Int :=
  let temp := arr
  ((barriersLevels n 0 (levels_count n) temp).getD 0 0, arr)

/-- Embedding of `(int)ceil(log2(n))` (prefix_sum_scan.cpp line 35): the
least `k` with `n ≤ 2^k`, computed by an executable search (for integer
arguments in the `int` range the double-precision `log2` of the source is
exact enough that the two agree).  `k` starts at 0; fuel bounds the search. -/
def pow2SearchIter : Nat → Nat → Nat → Nat
  | 0, _, k => k
  | f + 1, m, k => if 2 ^ k < m then pow2SearchIter f m (k + 1) else k

/-- `log_n = (int)ceil(log2(n))` of `parallel_prefix_sum_blelloch`
(prefix_sum_scan.cpp line 35). -/
def log2_ceil (n : Nat) : Nat :=
  pow2SearchIter n n 0

/-- The padded working buffer `temp` of `parallel_prefix_sum_blelloch`
(prefix_sum_scan.cpp lines 36-41): capacity `2^log2_ceil n`, the first
`n` cells copy the input, the rest stay `0`. -/
def blelloch_pad (arr : List Int) : List Int :=
  (List.range (2 ^ log2_ceil arr.length)).map
    (fun i => if i < arr.length then arr.getD i 0 else 0)

/-- One upsweep level of `parallel_prefix_sum_blelloch` (prefix_sum_scan.cpp
lines 60-63): `for (i = 0; i < n; i += stride) temp[i+stride-1] += temp[i+offset];`
with `stride = 2^(d+1)` and `offset = 2^d - 1`. -/
def upsweepIter (n d : Nat) : Nat → Nat → List Int → List Int
  | 0, _, temp => temp
  | f + 1, i, temp =>
    if i < n then
      upsweepIter n d f (i + 2 ^ (d + 1))
        (temp.set (i + 2 ^ (d + 1) - 1)
          (temp.getD (i + 2 ^ (d + 1) - 1) 0 + temp.getD (i + (2 ^ d - 1)) 0))
    else temp

/-- The upsweep phase (prefix_sum_scan.cpp lines 56-70): run `k` upsweep
levels starting at level `d`. -/
def upsweepLevels (n : Nat) : Nat → Nat → List Int → List Int
  | _, 0, temp => temp
  | d, k + 1, temp => upsweepLevels n (d + 1) k (upsweepIter n d n 0 temp)

/-- One downsweep level of `parallel_prefix_sum_blelloch`
(prefix_sum_scan.cpp lines 92-97):
`t = temp[i+offset]; temp[i+offset] = temp[i+stride-1]; temp[i+stride-1] += t;`. -/
def downsweepIter (n d : Nat) : Nat → Nat → List Int → List Int
  | 0, _, temp => temp
  | f + 1, i, temp =>
    if i < n then
      downsweepIter n d f (i + 2 ^ (d + 1))
        (let t := temp.getD (i + (2 ^ d - 1)) 0
         let temp1 := temp.set (i + (2 ^ d - 1)) (temp.getD (i + 2 ^ (d + 1) - 1) 0)
         temp1.set (i + 2 ^ (d + 1) - 1) (temp1.getD (i + 2 ^ (d + 1) - 1) 0 + t))
    else temp

/-- The downsweep phase (prefix_sum_scan.cpp lines 88-104): levels
`d = c-1, c-2, ..., 0` in descending order. -/
def downsweepLevels (n : Nat) : Nat → List Int → List Int
  | 0, temp => temp
  | c + 1, temp => downsweepLevels n c (downsweepIter n c n 0 temp)

/-- `parallel_prefix_sum_blelloch` of prefix_sum_scan.cpp (lines 30-119):
pad to the next power of two, upsweep, clear the root, downsweep (giving the
exclusive scan of the padded buffer), then convert to an inclusive scan of
the original length by `result[i] = temp[i] + arr[i]` (lines 113-116). -/
def parallel_prefix_sum_blelloch (arr : List Int) : List Int :=
  let original_n := arr.length
  let log_n := log2_ceil original_n
  let n := 2 ^ log_n
  let temp0 := blelloch_pad arr
  let temp1 := upsweepLevels n 0 log_n temp0
  let temp2 := temp1.set (n - 1) 0
  let temp3 := downsweepLevels n log_n temp2
  (List.range original_n).map (fun i => temp3.getD i 0 + arr.getD i 0)

/-- Phase-1 inner loop of `parallel_prefix_sum_recursive`
(prefix_sum_scan.cpp lines 177-180):
`for (i = start+1; i < end; i++) { local_sum += arr[i]; result[i] = local_sum; }`;
returns the updated result array and the final `local_sum`. -/
def phase1Iter (arr : List Int) (e : Nat) : Nat → Nat → Int → List Int → List Int × Int
  | 0, _, ls, result => (result, ls)
  | f + 1, i, ls, result =>
    if i < e then
      phase1Iter arr e f (i + 1) (ls + arr.getD i 0)
        (result.set i (ls + arr.getD i 0))
    else (result, ls)

/-- Phase-1 work of thread `tid` in `parallel_prefix_sum_recursive`
(prefix_sum_scan.cpp lines 166-184): a local inclusive scan of the chunk
`[tid*chunk, min(tid*chunk + chunk, n))`; the second component is the block
sum recorded in `block_sums[tid]` (`0` when the chunk is empty, the
initial value of `block_sums`). -/
def phase1Block (arr : List Int) (n chunk tid : Nat) (result : List Int) : List Int × Int :=
  let start := tid * chunk
  let e := min (start + chunk) n
  if start < e then
    phase1Iter arr e n (start + 1) (arr.getD start 0)
      (result.set start (arr.getD start 0))
  else (result, 0)

/-- Phase 1 over threads `tid, tid+1, ..., tid+k-1` (the OpenMP parallel
region of prefix_sum_scan.cpp lines 166-184 executed in thread-id order,
legitimate because the chunks are pairwise disjoint); accumulates the block
sums in `sums`. -/
def phase1All (arr : List Int) (n chunk : Nat) : Nat → Nat → List Int → List Int → List Int × List Int
  | 0, _, result, sums => (result, sums)
  | k + 1, tid, result, sums =>
    let rs := phase1Block arr n chunk tid result
    phase1All arr n chunk k (tid + 1) rs.1 (sums ++ [rs.2])

/-- Phase-2 loop of `parallel_prefix_sum_recursive` (prefix_sum_scan.cpp
lines 187-191): `block_prefix[i] = block_prefix[i-1] + block_sums[i-1]`
for `i = 1 .. w-1`, sequentially. -/
def blockOffsetsIter (sums : List Int) (w : Nat) : Nat → Nat → List Int → List Int
  | 0, _, bp => bp
  | f + 1, i, bp =>
    if i < w then
      blockOffsetsIter sums w f (i + 1)
        (bp.set i (bp.getD (i - 1) 0 + sums.getD (i - 1) 0))
    else bp

/-- Phase-3 inner loop of `parallel_prefix_sum_recursive`
(prefix_sum_scan.cpp lines 201-203): add `block_prefix[tid]` to every
element of the chunk. -/
def phase3Iter (bp : List Int) (tid : Nat) (e : Nat) : Nat → Nat → List Int → List Int
  | 0, _, result => result
  | f + 1, i, result =>
    if i < e then
      phase3Iter bp tid e f (i + 1) (result.set i (result.getD i 0 + bp.getD tid 0))
    else result

/-- Phase 3 over threads `tid, ..., tid+k-1` (prefix_sum_scan.cpp lines
194-204), again in thread-id order over pairwise disjoint chunks. -/
def phase3All (bp : List Int) (n chunk : Nat) : Nat → Nat → List Int → List Int
  | 0, _, result => result
  | k + 1, tid, result =>
    phase3All bp n chunk k (tid + 1)
      (phase3Iter bp tid (min (tid * chunk + chunk) n) n (tid * chunk) result)

/-- `parallel_prefix_sum_recursive` of prefix_sum_scan.cpp (lines 156-207)
with worker count `w` (the source reads `omp_get_max_threads()`): local
scans per chunk of size `ceil(n / w)`, sequential exclusive scan of the
block sums, then a parallel broadcast of the block offsets. -/
def parallel_prefix_sum_recursive (arr : List Int) (w : Nat) : List Int :=
  let n := arr.length
  if n = 0 then List.replicate n 0
  else
    let chunk := (n + w - 1) / w
    let rs := phase1All arr n chunk w 0 (List.replicate n 0) []
    let bp := blockOffsetsIter rs.2 w w 1 ((List.replicate w 0).set 0 0)
    phase3All bp n chunk w 0 rs.1

/-- The loop of `sequential_prefix_sum` (prefix_sum_scan.cpp lines 219-221):
`result[i] = result[i-1] + arr[i]` for `i = 1 .. n-1`. -/
def seqScanIter (arr : List Int) (n : Nat) : Nat → Nat → List Int → List Int
  | 0, _, result => result
  | f + 1, i, result =>
    if i < n then
      seqScanIter arr n f (i + 1) (result.set i (result.getD (i - 1) 0 + arr.getD i 0))
    else result

/-- `sequential_prefix_sum` of prefix_sum_scan.cpp (lines 212-224). -/
def sequential_prefix_sum (arr : List Int) : List Int :=
  let n := arr.length
  if n = 0 then List.replicate n 0
  else seqScanIter arr n n 1 ((List.replicate n 0).set 0 (arr.getD 0 0))

/-- The scanning loop of `verify_arrays` (prefix_sum_scan.cpp lines
244-249), boolean result: `false` as soon as a mismatch is found. -/
def verifyIter (a b : List Int) : Nat → Nat → Bool
  | 0, _ => true
  | f + 1, i =>
    if i < a.length then
      if a.getD i 0 ≠ b.getD i 0 then false else verifyIter a b f (i + 1)
    else true

/-- `verify_arrays` of prefix_sum_scan.cpp (lines 241-251): size check, then
elementwise comparison. -/
def verify_arrays (a b : List Int) : Bool :=
  if a.length ≠ b.length then false else verifyIter a b a.length 0

/-- The index printed by `verify_arrays` at the first mismatch
(`"Mismatch at index i"`, prefix_sum_scan.cpp line 246), `none` when the
function returns without reporting. -/
def verifyMismatchIter (a b : List Int) : Nat → Nat → Option Nat
  | 0, _ => none
  | f + 1, i =>
    if i < a.length then
      if a.getD i 0 ≠ b.getD i 0 then some i else verifyMismatchIter a b f (i + 1)
    else none

/-- The mismatch index reported by `verify_arrays`, if any. -/
def verify_mismatch_index (a b : List Int) : Option Nat :=
  if a.length ≠ b.length then none else verifyMismatchIter a b a.length 0

/-! ### Generic helper lemmas -/

/-- Reading the cell just written. -/
lemma getD_set_self (l : List Int) (i : Nat) (v : Int) (h : i < l.length) :
    (l.set i v).getD i 0 = v := by
  simp [List.getD_eq_getElem?_getD, List.getElem?_set_self', h]

/-- Reading a cell other than the one written. -/
lemma getD_set_ne (l : List Int) (i j : Nat) (v : Int) (h : i ≠ j) :
    (l.set i v).getD j 0 = l.getD j 0 := by
  simp [List.getD_eq_getElem?_getD, List.getElem?_set_ne h]

/-- Cells of a tabulated list. -/
lemma getD_range_map (n : Nat) (f : Nat → Int) (j : Nat) (h : j < n) :
    ((List.range n).map f).getD j 0 = f j := by
  rw [List.getD_eq_getElem?_getD]
  simp [List.getElem?_map, List.getElem?_range h]

/-- Cells of a zero-filled list (in or out of range). -/
lemma getD_replicate_zero (n j : Nat) : (List.replicate n (0 : Int)).getD j 0 = 0 := by
  rw [List.getD_eq_getElem?_getD, List.getElem?_replicate]
  split <;> rfl

/-- Two lists agreeing in length and in every in-range `getD` cell are equal. -/
lemma list_eq_of_getD (a b : List Int) (h : a.length = b.length)
    (h2 : ∀ i, i < a.length → a.getD i 0 = b.getD i 0) : a = b := by
  apply List.ext_getElem h
  intro i h1' h2'
  have := h2 i h1'
  rwa [List.getD_eq_getElem?_getD, List.getD_eq_getElem?_getD, List.getElem?_eq_getElem h1',
    List.getElem?_eq_getElem h2'] at this

/-- In-range `getD` values are members of the list. -/
lemma getD_mem (l : List Int) (i : Nat) (h : i < l.length) : l.getD i 0 ∈ l := by
  rw [List.getD_eq_getElem?_getD, List.getElem?_eq_getElem h]
  exact List.getElem_mem h

/-- Between two multiples of `s` there is a gap of at least `s`. -/
lemma dvd_next {s i j : Nat} (hi : s ∣ i) (hj : s ∣ j) (hij : i < j) :
    i + s ≤ j := by
  obtain ⟨a, ha⟩ := hi
  obtain ⟨b, hb⟩ := hj
  subst ha hb
  have hab : a < b := Nat.lt_of_mul_lt_mul_left hij
  calc s * a + s = s * (a + 1) := by ring
  _ ≤ s * b := Nat.mul_le_mul_left s hab

/-- A multiple of `s` strictly between `i` and `i + s` (inclusive right end)
is exactly `i + s`. -/
lemma dvd_between {s i j : Nat} (hi : s ∣ i) (hj : s ∣ j)
    (h1 : i < j) (h2 : j ≤ i + s) : j = i + s :=
  le_antisymm h2 (dvd_next hi hj h1)

/-- The C++ conditional update `if (x > m) m = x;` is `max`. -/
lemma ite_gt_eq_max (m x : Int) : (if x > m then x else m) = max m x := by
  rcases le_or_lt x m with h | h
  · simp [not_lt.mpr h, max_eq_left h]
  · simp [h, max_eq_right h.le]

/-! ### Range maxima -/

/-- Maximum of the values `g a, g (a+1), ..., g (a+k)` (a nonempty range,
combined left to right). -/
def maxFrom (g : Nat → Int) (a : Nat) : Nat → Int
  | 0 => g a
  | k + 1 => max (maxFrom g a k) (g (a + (k + 1)))

lemma maxFrom_split (g : Nat → Int) (a k m : Nat) :
    maxFrom g a (k + m + 1) = max (maxFrom g a k) (maxFrom g (a + k + 1) m) := by
  induction m with
  | zero => rfl
  | succ m ih =>
      show max (maxFrom g a (k + m + 1)) (g (a + (k + m + 2))) = _
      rw [ih, max_assoc]
      have hidx : a + (k + m + 2) = a + k + 1 + (m + 1) := by omega
      rw [hidx]
      rfl

lemma le_maxFrom (g : Nat → Int) (a : Nat) {j k : Nat} (h : j ≤ k) :
    g (a + j) ≤ maxFrom g a k := by
  induction k with
  | zero => interval_cases j; exact le_refl _
  | succ k ih =>
      rcases Nat.lt_or_ge j (k + 1) with h2 | h2
      · exact le_trans (ih (by omega)) (le_max_left _ _)
      · have : j = k + 1 := by omega
        subst this
        exact le_max_right _ _

lemma maxFrom_attained (g : Nat → Int) (a : Nat) (k : Nat) :
    ∃ j, j ≤ k ∧ maxFrom g a k = g (a + j) := by
  induction k with
  | zero => exact ⟨0, le_refl _, rfl⟩
  | succ k ih =>
      obtain ⟨j, hj, hv⟩ := ih
      rcases max_choice (maxFrom g a k) (g (a + (k + 1))) with h | h
      · exact ⟨j, by omega, by rw [maxFrom, h, hv]⟩
      · exact ⟨k + 1, le_refl _, by rw [maxFrom, h]⟩

/-! ### The maximum loop -/

/-- Characterization of `maxLoopIter`: with enough fuel, starting at `i`
with accumulator `m`, it returns the maximum of `m` and all values on
`[i, e)`. -/
lemma maxLoopIter_eq (arr : List Int) (e : Nat) :
    ∀ f i m, e ≤ i + f →
      maxLoopIter arr e f i m =
        if i < e then max m (maxFrom (fun x => arr.getD x 0) i (e - i - 1)) else m := by
  intro f
  induction f with
  | zero =>
      intro i m hf
      have hi : ¬ i < e := by omega
      simp [maxLoopIter, hi]
  | succ f ih =>
      intro i m hf
      by_cases hi : i < e
      · simp only [maxLoopIter, hi, if_pos]
        rw [ih (i + 1) _ (by omega), ite_gt_eq_max]
        by_cases hi2 : i + 1 < e
        · simp only [hi2, if_pos, hi]
          have h1 : e - i - 1 = 0 + (e - i - 2) + 1 := by omega
          rw [h1, maxFrom_split, max_assoc]
          rfl
        · have h2 : e - i - 1 = 0 := by omega
          simp only [hi2, if_neg, not_false_iff, hi, if_pos, h2]
          rfl
      · simp [maxLoopIter, hi]

/-- `sequential_max` computes `max INT_MIN (max of arr[0..n-1])`. -/
lemma sequential_max_eq (arr : List Int) (n : Nat) :
    sequential_max arr n =
      if 0 < n then max INT_MIN (maxFrom (fun x => arr.getD x 0) 0 (n - 1)) else INT_MIN := by
  unfold sequential_max
  rw [maxLoopIter_eq arr n n 0 INT_MIN (by omega)]
  rfl

/-! ### The binary-search embedding of ceil(log2) -/

lemma pow2SearchIter_spec :
    ∀ f m k, m ≤ 2 ^ (k + f) →
      m ≤ 2 ^ pow2SearchIter f m k ∧ k ≤ pow2SearchIter f m k ∧
        ∀ j, k ≤ j → j < pow2SearchIter f m k → 2 ^ j < m := by
  intro f
  induction f with
  | zero =>
      intro m k h
      refine ⟨by simpa using h, le_refl _, ?_⟩
      intro j h1 h2
      simp only [pow2SearchIter] at h2
      omega
  | succ f ih =>
      intro m k h
      by_cases hk : 2 ^ k < m
      · have hb : m ≤ 2 ^ (k + 1 + f) := by
          have : k + 1 + f = k + (f + 1) := by omega
          rw [this]; exact h
        obtain ⟨h1, h2, h3⟩ := ih m (k + 1) hb
        simp only [pow2SearchIter, hk, if_pos]
        refine ⟨h1, by omega, ?_⟩
        intro j hj1 hj2
        rcases Nat.eq_or_lt_of_le hj1 with rfl | hj3
        · exact hk
        · exact h3 j hj3 hj2
      · simp only [pow2SearchIter, hk, if_neg, not_false_iff]
        exact ⟨by omega, le_refl _, fun j h1 h2 => by omega⟩

/-- The padded capacity is at least the input length. -/
lemma le_two_pow_log2_ceil (n : Nat) : n ≤ 2 ^ log2_ceil n :=
  (pow2SearchIter_spec n n 0 (by simpa using (Nat.lt_two_pow n).le)).1

/-- The executable `log2_ceil` is the ceiling base-2 logarithm. -/
lemma log2_ceil_eq_clog (n : Nat) : log2_ceil n = Nat.clog 2 n := by
  rcases Nat.eq_zero_or_pos n with rfl | hn
  · simp [log2_ceil, pow2SearchIter]
  · have hspec := pow2SearchIter_spec n n 0 (by simpa using (Nat.lt_two_pow n).le)
    apply le_antisymm
    · rcases le_or_lt (log2_ceil n) (Nat.clog 2 n) with h | h
      · exact h
      · exfalso
        have h1 := hspec.2.2 (Nat.clog 2 n) (Nat.zero_le _) h
        have h2 : n ≤ 2 ^ Nat.clog 2 n := Nat.le_pow_clog (by norm_num) n
        omega
    · exact (Nat.le_pow_iff_clog_le (by norm_num)).mp hspec.1

/-! ### The level-counting loop -/

lemma levelsIter_eq : ∀ f m acc, m ≤ f → levelsIter f m acc = acc + Nat.clog 2 m := by
  intro f
  induction f with
  | zero =>
      intro m acc h
      have : m = 0 := by omega
      subst this
      simp [levelsIter]
  | succ f ih =>
      intro m acc h
      by_cases hm : 1 < m
      · simp only [levelsIter, hm, if_pos]
        rw [ih ((m + 1) / 2) (acc + 1) (by omega)]
        have hc : Nat.clog 2 m = Nat.clog 2 ((m + 2 - 1) / 2) + 1 :=
          Nat.clog_of_two_le (by norm_num) (by omega)
        have h21 : (m + 2 - 1) / 2 = (m + 1) / 2 := by omega
        rw [h21] at hc
        omega
      · simp only [levelsIter, hm, if_neg, not_false_iff]
        interval_cases m
        · simp
        · simp [Nat.clog_one_right]

/-- The halving loop of `parallel_max_explicit_barriers` counts exactly
`ceil(log2 n)` levels. -/
lemma levels_count_eq_clog (n : Nat) : levels_count n = Nat.clog 2 n := by
  unfold levels_count
  rw [levelsIter_eq n n 0 (le_refl n)]
  omega

/-! ### One tree-reduction level -/

lemma treeLevelIter_length (n s : Nat) :
    ∀ f i t, (treeLevelIter n s f i t).length = t.length := by
  intro f
  induction f with
  | zero => intro i t; rfl
  | succ f ih =>
      intro i t
      simp only [treeLevelIter]
      split
      · rw [ih]
        split <;> simp [List.length_set]
      · rfl

/-- Pointwise characterization of one tree level: cell `j` becomes
`max t[j] t[j+stride]` exactly when `j` is a not-yet-passed multiple of
`2*stride` whose partner is in range, and is untouched otherwise. -/
lemma treeLevelIter_getD (n s : Nat) :
    ∀ f i t, t.length = n → (2 * (s + 1)) ∣ i → n ≤ i + f → ∀ j, j < n →
      (treeLevelIter n s f i t).getD j 0 =
        if i ≤ j ∧ (2 * (s + 1)) ∣ j ∧ j + (s + 1) < n then
          max (t.getD j 0) (t.getD (j + (s + 1)) 0)
        else t.getD j 0 := by
  intro f
  induction f with
  | zero =>
      intro i t ht hdvd hf j hj
      have : ¬ (i ≤ j ∧ (2 * (s + 1)) ∣ j ∧ j + (s + 1) < n) := by
        rintro ⟨h1, _, _⟩; omega
      simp [treeLevelIter, this]
  | succ f ih =>
      intro i t ht hdvd hf j hj
      by_cases hi : i < n
      · simp only [treeLevelIter, hi, if_pos]
        by_cases hw : i + (s + 1) < n
        · simp only [hw, if_pos]
          set t' := t.set i (max (t.getD i 0) (t.getD (i + (s + 1)) 0)) with ht'
          have ht'len : t'.length = n := by rw [ht', List.length_set]; exact ht
          have hdvd2 : (2 * (s + 1)) ∣ (i + 2 * (s + 1)) := dvd_add hdvd (dvd_refl _)
          rw [ih (i + 2 * (s + 1)) t' ht'len hdvd2 (by omega) j hj]
          by_cases hj_eq : j = i
          · subst hj_eq
            have hc1 : ¬ (j + 2 * (s + 1) ≤ j ∧ (2 * (s + 1)) ∣ j ∧ j + (s + 1) < n) := by
              rintro ⟨h1, _, _⟩; omega
            have hc2 : j ≤ j ∧ (2 * (s + 1)) ∣ j ∧ j + (s + 1) < n :=
              ⟨le_refl _, hdvd, hw⟩
            rw [if_neg hc1, if_pos hc2, ht', getD_set_self]
            omega
          · by_cases hc : i ≤ j ∧ (2 * (s + 1)) ∣ j ∧ j + (s + 1) < n
            · obtain ⟨hc1, hc2, hc3⟩ := hc
              have hstep : i + 2 * (s + 1) ≤ j :=
                dvd_next hdvd hc2 (by omega)
              rw [if_pos ⟨hstep, hc2, hc3⟩, ht',
                getD_set_ne _ _ _ _ (by omega), getD_set_ne _ _ _ _ (by omega),
                if_pos ⟨hc1, hc2, hc3⟩]
            · have hc2 : ¬ (i + 2 * (s + 1) ≤ j ∧ (2 * (s + 1)) ∣ j ∧ j + (s + 1) < n) := by
                rintro ⟨h1, h2, h3⟩
                exact hc ⟨by omega, h2, h3⟩
              rw [if_neg hc2, if_neg hc, ht', getD_set_ne _ _ _ _ (Ne.symm hj_eq)]
        · simp only [hw, if_neg, not_false_iff]
          have hdvd2 : (2 * (s + 1)) ∣ (i + 2 * (s + 1)) := dvd_add hdvd (dvd_refl _)
          rw [ih (i + 2 * (s + 1)) t ht hdvd2 (by omega) j hj]
          by_cases hc : i ≤ j ∧ (2 * (s + 1)) ∣ j ∧ j + (s + 1) < n
          · obtain ⟨hc1, hc2, hc3⟩ := hc
            have hij : i ≠ j := by
              rintro rfl; omega
            have hstep : i + 2 * (s + 1) ≤ j :=
              dvd_next hdvd hc2 (lt_of_le_of_ne hc1 hij)
            rw [if_pos ⟨hstep, hc2, hc3⟩, if_pos ⟨hc1, hc2, hc3⟩]
          · have hc2 : ¬ (i + 2 * (s + 1) ≤ j ∧ (2 * (s + 1)) ∣ j ∧ j + (s + 1) < n) := by
              rintro ⟨h1, h2, h3⟩
              exact hc ⟨by omega, h2, h3⟩
            rw [if_neg hc2, if_neg hc]
      · have : ¬ (i ≤ j ∧ (2 * (s + 1)) ∣ j ∧ j + (s + 1) < n) := by
          rintro ⟨h1, _, _⟩; omega
        simp [treeLevelIter, hi, this]

/-! ### Tree-reduction invariant -/

/-- Running one level with stride `st` upgrades the segment-maximum
invariant from multiples of `st` to multiples of `2*st`. -/
lemma treeLevel_inv (n : Nat) (g : Nat → Int) (st : Nat) (hst : 0 < st) (t : List Int)
    (ht : t.length = n)
    (hinv : ∀ i, st ∣ i → i < n → t.getD i 0 = maxFrom g i (min (i + st) n - i - 1)) :
    ∀ i, (2 * st) ∣ i → i < n →
      (treeLevelIter n (st - 1) n 0 t).getD i 0 = maxFrom g i (min (i + 2 * st) n - i - 1) := by
  intro i hdvd hi
  have hs1 : st - 1 + 1 = st := by omega
  have hchar := treeLevelIter_getD n (st - 1) n 0 t ht (by rw [hs1]; exact dvd_zero _)
    (by omega) i hi
  rw [hs1] at hchar
  rw [hchar]
  have hsti : st ∣ i := dvd_trans ⟨2, by ring⟩ hdvd
  by_cases hw : i + st < n
  · rw [if_pos ⟨Nat.zero_le _, hdvd, hw⟩]
    rw [hinv i hsti hi, hinv (i + st) (dvd_add hsti (dvd_refl st)) hw]
    have hmin1 : min (i + st) n = i + st := by omega
    rw [hmin1]
    have harith : min (i + 2 * st) n - i - 1 =
        (i + st - i - 1) + (min (i + st + st) n - (i + st) - 1) + 1 := by omega
    rw [harith, maxFrom_split]
    have hidx : i + (i + st - i - 1) + 1 = i + st := by omega
    rw [hidx]
  · rw [if_neg (by rintro ⟨_, _, h⟩; omega)]
    rw [hinv i hsti hi]
    have : min (i + st) n = n ∧ min (i + 2 * st) n = n := by omega
    rw [this.1, this.2]

/-- The stride-doubling while-loop of `parallel_max_tree_reduction`
computes the overall maximum in cell 0. -/
lemma treeReduceIter_getD (n : Nat) (g : Nat → Int) (hn : 0 < n) :
    ∀ f s t, t.length = n → n ≤ s + 1 + f →
      (∀ i, (s + 1) ∣ i → i < n →
        t.getD i 0 = maxFrom g i (min (i + (s + 1)) n - i - 1)) →
      (treeReduceIter n f s t).getD 0 0 = maxFrom g 0 (n - 1) := by
  intro f
  induction f with
  | zero =>
      intro s t ht hf hinv
      have hguard : ¬ s + 1 < n := by omega
      simp only [treeReduceIter, hguard, if_neg, not_false_iff]
      rw [hinv 0 (dvd_zero _) hn]
      have harith : min (0 + (s + 1)) n - 0 - 1 = n - 1 := by omega
      rw [harith]
  | succ f ih =>
      intro s t ht hf hinv
      by_cases hguard : s + 1 < n
      · simp only [treeReduceIter, hguard, if_pos]
        have hlen : (treeLevelIter n s n 0 t).length = n := by
          rw [treeLevelIter_length]; exact ht
        refine ih (2 * s + 1) (treeLevelIter n s n 0 t) hlen (by omega) ?_
        intro i hdvd hi
        have h2 : 2 * s + 1 + 1 = 2 * (s + 1) := by omega
        rw [h2] at hdvd
        have hlev := treeLevel_inv n g (s + 1) (by omega) t ht hinv i hdvd hi
        have hss : s + 1 - 1 = s := by omega
        rw [hss] at hlev
        rw [hlev]
        congr 1
      · simp only [treeReduceIter, hguard, if_neg, not_false_iff]
        rw [hinv 0 (dvd_zero _) hn]
        have harith : min (0 + (s + 1)) n - 0 - 1 = n - 1 := by omega
        rw [harith]

/-- `parallel_max_tree_reduction` returns the maximum of the first `n`
cells of its argument. -/
lemma parallel_max_tree_reduction_eq (arr : List Int) (n : Nat)
    (hl : arr.length = n) (hn : 0 < n) :
    parallel_max_tree_reduction arr n = maxFrom (fun x => arr.getD x 0) 0 (n - 1) := by
  unfold parallel_max_tree_reduction
  apply treeReduceIter_getD n (fun x => arr.getD x 0) hn n 0 arr hl (by omega)
  intro i hdvd hi
  have : min (i + (0 + 1)) n - i - 1 = 0 := by omega
  rw [this]
  rfl

/-! ### Explicit-barriers engine -/

lemma barriersLevels_inv (n : Nat) (g : Nat → Int) :
    ∀ k level t, t.length = n →
      (∀ i, 2 ^ level ∣ i → i < n →
        t.getD i 0 = maxFrom g i (min (i + 2 ^ level) n - i - 1)) →
      ∀ i, 2 ^ (level + k) ∣ i → i < n →
        (barriersLevels n level k t).getD i 0 =
          maxFrom g i (min (i + 2 ^ (level + k)) n - i - 1) := by
  intro k
  induction k with
  | zero =>
      intro level t ht hinv i hdvd hi
      exact hinv i hdvd hi
  | succ k ih =>
      intro level t ht hinv i hdvd hi
      show (barriersLevels n (level + 1) k (treeLevelIter n (2 ^ level - 1) n 0 t)).getD i 0 = _
      have hpow : 0 < 2 ^ level := Nat.pos_pow_of_pos level (by norm_num)
      have hlen : (treeLevelIter n (2 ^ level - 1) n 0 t).length = n := by
        rw [treeLevelIter_length]; exact ht
      have hstep : ∀ j, 2 ^ (level + 1) ∣ j → j < n →
          (treeLevelIter n (2 ^ level - 1) n 0 t).getD j 0 =
            maxFrom g j (min (j + 2 ^ (level + 1)) n - j - 1) := by
        intro j hdvd2 hj
        have h2 : 2 ^ (level + 1) = 2 * 2 ^ level := by
          rw [pow_succ]; ring
        rw [h2] at hdvd2 ⊢
        exact treeLevel_inv n g (2 ^ level) hpow t ht hinv j hdvd2 hj
      have harith : level + (k + 1) = (level + 1) + k := by omega
      rw [harith] at hdvd ⊢
      exact ih (level + 1) _ hlen hstep i hdvd hi

/-- `parallel_max_explicit_barriers` returns the maximum of the first `n`
cells of its argument. -/
lemma parallel_max_explicit_barriers_eq (arr : List Int) (n : Nat)
    (hl : arr.length = n) (hn : 0 < n) :
    parallel_max_explicit_barriers arr n = maxFrom (fun x => arr.getD x 0) 0 (n - 1) := by
  unfold parallel_max_explicit_barriers
  have hinv : ∀ i, 2 ^ 0 ∣ i → i < n →
      arr.getD i 0 = maxFrom (fun x => arr.getD x 0) i (min (i + 2 ^ 0) n - i - 1) := by
    intro i _ hi
    have : min (i + 2 ^ 0) n - i - 1 = 0 := by
      simp only [pow_zero]; omega
    rw [this]
    rfl
  have h := barriersLevels_inv n (fun x => arr.getD x 0) (levels_count n) 0 arr hl hinv
    0 (dvd_zero _) hn
  rw [h]
  have hge : n ≤ 2 ^ (0 + levels_count n) := by
    rw [Nat.zero_add, levels_count_eq_clog]
    exact Nat.le_pow_clog (by norm_num) n
  have harith : min (0 + 2 ^ (0 + levels_count n)) n - 0 - 1 = n - 1 := by omega
  rw [harith]

/-! ### Sections (chunked) engine -/

lemma sectionsChunkMax_eq (arr : List Int) (n chunk tid : Nat) :
    sectionsChunkMax arr n chunk tid =
      if tid * chunk < min (tid * chunk + chunk) n then
        max INT_MIN (maxFrom (fun x => arr.getD x 0) (tid * chunk)
          (min (tid * chunk + chunk) n - tid * chunk - 1))
      else INT_MIN := by
  unfold sectionsChunkMax
  exact maxLoopIter_eq arr (min (tid * chunk + chunk) n) n (tid * chunk) INT_MIN (by omega)

lemma sections_fold (arr : List Int) (n chunk : Nat) (hcn : 0 < chunk ∨ n = 0) :
    ∀ t, ((List.range t).map (fun tid => sectionsChunkMax arr n chunk tid)).foldl max INT_MIN =
      if 0 < min (t * chunk) n then
        max INT_MIN (maxFrom (fun x => arr.getD x 0) 0 (min (t * chunk) n - 1))
      else INT_MIN := by
  intro t
  induction t with
  | zero => simp
  | succ t ih =>
      rw [List.range_succ, List.map_append, List.foldl_append]
      simp only [List.map_cons, List.map_nil, List.foldl_cons, List.foldl_nil]
      rw [ih, sectionsChunkMax_eq]
      by_cases hn : n ≤ t * chunk
      · have he : min (t * chunk + chunk) n = n := by omega
        have hcond : ¬ t * chunk < min (t * chunk + chunk) n := by omega
        rw [if_neg hcond]
        have hmin1 : min (t * chunk) n = n := by omega
        have hmin2 : min ((t + 1) * chunk) n = n := by
          have : t * chunk ≤ (t + 1) * chunk := by
            apply Nat.mul_le_mul_right
            omega
          omega
        rw [hmin1, hmin2]
        by_cases hn0 : 0 < n
        · rw [if_pos hn0]
          exact max_eq_left (le_max_left _ _)
        · rw [if_neg hn0]
          exact max_self _
      · push_neg at hn
        have hchunk : 0 < chunk := by
          rcases hcn with h | h
          · exact h
          · omega
        have he : t * chunk < min (t * chunk + chunk) n := by omega
        rw [if_pos he]
        have hmin1 : min (t * chunk) n = t * chunk := by omega
        have hmin2 : (t + 1) * chunk = t * chunk + chunk := by ring
        rw [hmin1, hmin2]
        have hpos : 0 < min (t * chunk + chunk) n := by omega
        rw [if_pos hpos]
        by_cases ht0 : 0 < t * chunk
        · rw [if_pos ht0]
          have hsplit : min (t * chunk + chunk) n - 1 =
              (t * chunk - 1) + (min (t * chunk + chunk) n - t * chunk - 1) + 1 := by omega
          rw [hsplit, maxFrom_split]
          have hidx : 0 + (t * chunk - 1) + 1 = t * chunk := by omega
          rw [hidx]
          rw [max_max_max_comm, max_self]
        · rw [if_neg ht0]
          have ht0' : t * chunk = 0 := by omega
          rw [ht0']
          rw [← max_assoc, max_self]
          simp only [Nat.zero_add]
          rfl

/-- `parallel_max_sections` agrees with `sequential_max` for every worker
count `w ≥ 1` and every `n`. -/
lemma parallel_max_sections_eq (arr : List Int) (n w : Nat) (hw : 0 < w) :
    parallel_max_sections arr n w = sequential_max arr n := by
  unfold parallel_max_sections
  rw [sequential_max_eq]
  have hcn : 0 < (n + w - 1) / w ∨ n = 0 := by
    rcases Nat.eq_zero_or_pos n with h | h
    · right; exact h
    · left
      apply Nat.div_pos _ hw
      omega
  rw [sections_fold arr n ((n + w - 1) / w) hcn w]
  have hcov : n ≤ w * ((n + w - 1) / w) := by
    have h1 := Nat.div_add_mod (n + w - 1) w
    have h2 : (n + w - 1) % w < w := Nat.mod_lt _ hw
    set q := (n + w - 1) / w with hq
    set r := (n + w - 1) % w with hr
    set p := w * q with hp
    omega
  have hmin : min (w * ((n + w - 1) / w)) n = n := by omega
  rw [hmin]

/-! ### Auxiliary reported quantities of the Blelloch scan -/

/-- The `Number of levels` reported by `parallel_prefix_sum_blelloch`
(prefix_sum_scan.cpp line 44). -/
def blelloch_levels (n : Nat) : Nat := log2_ceil n

/-- The `Synchronization steps` reported by `parallel_prefix_sum_blelloch`
(prefix_sum_scan.cpp line 45): `2 * log_n`. -/
def blelloch_sync_steps (n : Nat) : Nat := 2 * log2_ceil n

/-- The padded capacity `n = 1 << log_n` computed by
`parallel_prefix_sum_blelloch` (prefix_sum_scan.cpp line 36). -/
def blelloch_padded_n (n : Nat) : Nat := 2 ^ log2_ceil n

/-! ### Per-iteration index footprints of the leveled parallel loops -/

/-- Index cells accessed by iteration `i` of a tree-reduction level with
stride `stride` (parallel_maximum.cpp lines 57-61 and 126-129): the
iteration reads `temp[i]` and `temp[i+stride]` and writes `temp[i]`. -/
def treeIterTouched (stride i : Nat) : Finset Nat := {i, i + stride}

/-- Cell written by iteration `i` of upsweep level `d`
(prefix_sum_scan.cpp line 62): `temp[i + stride - 1]` with
`stride = 2^(d+1)`. -/
def upsweepIterWrites (d i : Nat) : Finset Nat := {i + 2 ^ (d + 1) - 1}

/-- Cells read by iteration `i` of upsweep level `d`
(prefix_sum_scan.cpp line 62): `temp[i + stride - 1]` and
`temp[i + offset]` with `offset = 2^d - 1`. -/
def upsweepIterReads (d i : Nat) : Finset Nat :=
  {i + 2 ^ (d + 1) - 1, i + (2 ^ d - 1)}

/-- Cells read and written by iteration `i` of downsweep level `d`
(prefix_sum_scan.cpp lines 94-96): `temp[i + offset]` and
`temp[i + stride - 1]`. -/
def downsweepIterTouched (d i : Nat) : Finset Nat :=
  {i + (2 ^ d - 1), i + 2 ^ (d + 1) - 1}

/-! ### Claim theorems for the maximum engines -/

/-- C2: for every non-empty sequence `S` of C++ `int` values, every
reduction strategy (`parallel_max_reduction`, `parallel_max_tree_reduction`,
`parallel_max_sections` for any worker count `w ≥ 1`, and
`parallel_max_explicit_barriers`) returns the same value as
`sequential_max`, and that value is the maximum element of `S`. -/
theorem C2_reduction_strategies_max (S : List Int) (h : S ≠ [])
    (hrange : ∀ x ∈ S, INT_MIN ≤ x) (w : Nat) (hw : 1 ≤ w) :
    parallel_max_reduction S S.length = sequential_max S S.length ∧
    parallel_max_tree_reduction S S.length = sequential_max S S.length ∧
    parallel_max_sections S S.length w = sequential_max S S.length ∧
    parallel_max_explicit_barriers S S.length = sequential_max S S.length ∧
    sequential_max S S.length ∈ S ∧
    ∀ x ∈ S, x ≤ sequential_max S S.length := by
  have hn : 0 < S.length := List.length_pos.mpr h
  set g := fun x => S.getD x 0 with hg
  obtain ⟨j, hj, hjv⟩ := maxFrom_attained g 0 (S.length - 1)
  have hjlt : j < S.length := by omega
  have hmem : maxFrom g 0 (S.length - 1) ∈ S := by
    rw [hjv]
    have : 0 + j = j := by omega
    rw [this]
    exact getD_mem S j hjlt
  have hlow : INT_MIN ≤ maxFrom g 0 (S.length - 1) := hrange _ hmem
  have hseq : sequential_max S S.length = maxFrom g 0 (S.length - 1) := by
    rw [sequential_max_eq, if_pos hn]
    exact max_eq_right hlow
  refine ⟨rfl, ?_, ?_, ?_, ?_, ?_⟩
  · rw [parallel_max_tree_reduction_eq S S.length rfl hn, hseq]
  · exact parallel_max_sections_eq S S.length w hw
  · rw [parallel_max_explicit_barriers_eq S S.length rfl hn, hseq]
  · rw [hseq]; exact hmem
  · intro x hx
    rw [hseq]
    obtain ⟨i, hi, hix⟩ := List.mem_iff_getElem.mp hx
    have hix' : g i = x := by
      rw [hg]
      simp only []
      rw [List.getD_eq_getElem?_getD, List.getElem?_eq_getElem hi, hix]
      rfl
    rw [← hix']
    have h0i : 0 + i = i := by omega
    rw [← h0i]
    exact le_maxFrom g 0 (by omega)

/-- Witness for C2 at `S = [5, 3, 9]`, `w = 2`. -/
theorem C2_reduction_strategies_max_witness :
    parallel_max_reduction [5, 3, 9] 3 = sequential_max [5, 3, 9] 3 ∧
    parallel_max_tree_reduction [5, 3, 9] 3 = sequential_max [5, 3, 9] 3 ∧
    parallel_max_sections [5, 3, 9] 3 2 = sequential_max [5, 3, 9] 3 ∧
    parallel_max_explicit_barriers [5, 3, 9] 3 = sequential_max [5, 3, 9] 3 ∧
    sequential_max [5, 3, 9] 3 ∈ [5, 3, 9] ∧
    ∀ x ∈ [5, 3, 9], x ≤ sequential_max ([5, 3, 9] : List Int) 3 :=
  C2_reduction_strategies_max [5, 3, 9] (by decide) (by decide) 2 (by decide)

/-- C4: for every `N ≥ 1` the halving loop of
`parallel_max_explicit_barriers` reports `ceil(log2 N)` levels, the Blelloch
scan reports `2 * ceil(log2 N)` synchronization steps, and for `N = 1000`
these are `10` and `20` with padded capacity `1024`. -/
theorem C4_level_count_formulas (N : Nat) (_hN : 1 ≤ N) :
    levels_count N = Nat.clog 2 N ∧
    blelloch_sync_steps N = 2 * Nat.clog 2 N ∧
    levels_count 1000 = 10 ∧
    blelloch_sync_steps 1000 = 20 ∧
    blelloch_padded_n 1000 = 1024 := by
  refine ⟨levels_count_eq_clog N, ?_, by decide, by decide, by decide⟩
  unfold blelloch_sync_steps
  rw [log2_ceil_eq_clog]

/-- Witness for C4 at `N = 7`. -/
theorem C4_level_count_formulas_witness :
    levels_count 7 = Nat.clog 2 7 ∧
    blelloch_sync_steps 7 = 2 * Nat.clog 2 7 ∧
    levels_count 1000 = 10 ∧
    blelloch_sync_steps 1000 = 20 ∧
    blelloch_padded_n 1000 = 1024 :=
  C4_level_count_formulas 7 (by decide)

/-- C8: on `[456,789,123,890,234,567,345,678]` (N = 8),
`parallel_max_explicit_barriers` returns `890`, reports `3` synchronization
levels, and after level 0 (stride 1) the working buffer is
`[789,789,890,890,567,567,678,678]`. -/
theorem C8_scenario_a :
    parallel_max_explicit_barriers [456, 789, 123, 890, 234, 567, 345, 678] 8 = 890 ∧
    levels_count 8 = 3 ∧
    treeLevelIter 8 (2 ^ 0 - 1) 8 0 [456, 789, 123, 890, 234, 567, 345, 678] =
      [789, 789, 890, 890, 567, 567, 678, 678] := by
  decide

/-- C10: `parallel_max_tree_reduction` and `parallel_max_explicit_barriers`
take the caller's vector by non-const reference but mutate only their
private working copy `temp`, so the referenced vector after the call equals
the vector before the call, and the returned value is that of the plain
embedding. -/
theorem C10_reference_argument_unchanged (arr : List Int) (n : Nat) :
    (parallel_max_tree_reduction_call arr n).2 = arr ∧
    (parallel_max_tree_reduction_call arr n).1 = parallel_max_tree_reduction arr n ∧
    (parallel_max_explicit_barriers_call arr n).2 = arr ∧
    (parallel_max_explicit_barriers_call arr n).1 = parallel_max_explicit_barriers arr n :=
  ⟨rfl, rfl, rfl, rfl⟩

/-- C6: within one level, distinct qualifying loop iterations touch
pairwise disjoint index sets: tree-reduction iterations at stride `s` touch
`{i, i+s}` for multiples `i` of `2s`; Blelloch upsweep/downsweep iterations
at level `d` touch `{i + 2^d - 1, i + 2^(d+1) - 1}` for multiples `i` of
`2^(d+1)`; in particular the cell written by one upsweep iteration never
aliases the cells read or written by another iteration of the same level. -/
theorem C6_level_iterations_disjoint :
    (∀ stride i1 i2, 0 < stride → (2 * stride) ∣ i1 → (2 * stride) ∣ i2 → i1 ≠ i2 →
      Disjoint (treeIterTouched stride i1) (treeIterTouched stride i2)) ∧
    (∀ d i1 i2, 2 ^ (d + 1) ∣ i1 → 2 ^ (d + 1) ∣ i2 → i1 ≠ i2 →
      Disjoint (downsweepIterTouched d i1) (downsweepIterTouched d i2) ∧
      Disjoint (upsweepIterWrites d i1) (upsweepIterReads d i2 ∪ upsweepIterWrites d i2)) := by
  constructor
  · intro stride i1 i2 hs h1 h2 hne
    have hgap : i1 + 2 * stride ≤ i2 ∨ i2 + 2 * stride ≤ i1 := by
      rcases lt_trichotomy i1 i2 with h | h | h
      · left; exact dvd_next h1 h2 h
      · exact absurd h hne
      · right; exact dvd_next h2 h1 h
    rw [Finset.disjoint_left]
    intro a ha hb
    simp only [treeIterTouched, Finset.mem_insert, Finset.mem_singleton] at ha hb
    omega
  · intro d i1 i2 h1 h2 hne
    have hpow : 0 < 2 ^ d := Nat.pos_pow_of_pos d (by norm_num)
    have hpow2 : 2 ^ (d + 1) = 2 * 2 ^ d := by rw [pow_succ]; ring
    have hgap : i1 + 2 ^ (d + 1) ≤ i2 ∨ i2 + 2 ^ (d + 1) ≤ i1 := by
      rcases lt_trichotomy i1 i2 with h | h | h
      · left; exact dvd_next h1 h2 h
      · exact absurd h hne
      · right; exact dvd_next h2 h1 h
    constructor
    · rw [Finset.disjoint_left]
      intro a ha hb
      simp only [downsweepIterTouched, Finset.mem_insert, Finset.mem_singleton] at ha hb
      omega
    · rw [Finset.disjoint_left]
      intro a ha hb
      simp only [upsweepIterWrites, upsweepIterReads, Finset.mem_union, Finset.mem_insert,
        Finset.mem_singleton] at ha hb
      omega

/-- Witness for C6 at `stride = 1`, `d = 0`, iterations `i1 = 0`, `i2 = 2`. -/
theorem C6_level_iterations_disjoint_witness :
    Disjoint (treeIterTouched 1 0) (treeIterTouched 1 2) ∧
    Disjoint (downsweepIterTouched 0 0) (downsweepIterTouched 0 2) ∧
    Disjoint (upsweepIterWrites 0 0) (upsweepIterReads 0 2 ∪ upsweepIterWrites 0 2) :=
  ⟨C6_level_iterations_disjoint.1 1 0 2 (by decide) (by decide) (by decide) (by decide),
   (C6_level_iterations_disjoint.2 0 0 2 (by decide) (by decide) (by decide)).1,
   (C6_level_iterations_disjoint.2 0 0 2 (by decide) (by decide) (by decide)).2⟩

/-! ### Two-adic valuation (proof-side helper for the Blelloch invariants) -/

/-- Number of trailing binary zeros of `m` (the 2-adic valuation; `0` at 0). -/
def nu2 (m : Nat) : Nat :=
  if h : 2 ∣ m ∧ m ≠ 0 then nu2 (m / 2) + 1 else 0
termination_by m
decreasing_by exact Nat.div_lt_self (Nat.pos_of_ne_zero h.2) (by norm_num)

lemma nu2_spec (m : Nat) (hm : m ≠ 0) : 2 ^ nu2 m ∣ m ∧ ¬ 2 ^ (nu2 m + 1) ∣ m := by
  induction m using Nat.strong_induction_on with
  | _ m ih =>
    by_cases h : 2 ∣ m ∧ m ≠ 0
    · obtain ⟨k, hk⟩ := h.1
      have hk0 : k ≠ 0 := by rintro rfl; omega
      have hlt : m / 2 < m := Nat.div_lt_self (Nat.pos_of_ne_zero hm) (by norm_num)
      have hdiv : m / 2 = k := by omega
      have hrec := ih (m / 2) hlt (by rw [hdiv]; exact hk0)
      rw [hdiv] at hrec
      rw [nu2, dif_pos h, hdiv]
      constructor
      · rw [pow_succ, hk, Nat.mul_comm 2 k]
        exact mul_dvd_mul hrec.1 (dvd_refl 2)
      · intro hcon
        apply hrec.2
        rw [pow_succ, hk, Nat.mul_comm 2 k] at hcon
        exact (Nat.mul_dvd_mul_iff_right (by norm_num : (0:Nat) < 2)).mp hcon
    · rw [nu2, dif_neg h]
      constructor
      · rw [pow_zero]; exact one_dvd m
      · intro hcon
        rw [pow_one] at hcon
        exact h ⟨hcon, hm⟩

lemma pow_dvd_iff_le_nu2 (m e : Nat) (hm : m ≠ 0) : 2 ^ e ∣ m ↔ e ≤ nu2 m := by
  constructor
  · intro h
    by_contra hgt
    exact (nu2_spec m hm).2 (dvd_trans (pow_dvd_pow 2 (by omega)) h)
  · intro h
    exact dvd_trans (pow_dvd_pow 2 h) (nu2_spec m hm).1

lemma nu2_eq_of (m c : Nat) (hm : m ≠ 0) (h1 : 2 ^ c ∣ m) (h2 : ¬ 2 ^ (c + 1) ∣ m) :
    nu2 m = c := by
  have hle := (pow_dvd_iff_le_nu2 m c hm).mp h1
  by_contra hne
  exact h2 ((pow_dvd_iff_le_nu2 m (c + 1) hm).mpr (by omega))

lemma nu2_two_pow (L : Nat) : nu2 (2 ^ L) = L := by
  have hpos : 0 < 2 ^ L := Nat.pos_pow_of_pos L (by norm_num)
  refine nu2_eq_of (2 ^ L) L (by omega) (dvd_refl _) ?_
  intro hcon
  have h1 := Nat.le_of_dvd hpos hcon
  have h2 : (2 : Nat) ^ L < 2 ^ (L + 1) := Nat.pow_lt_pow_right (by norm_num) (by omega)
  omega

/-- The odd-cofactor cell below an active upsweep/downsweep cell has 2-adic
valuation exactly `d`: if `2^(d+1)` divides `m` then `nu2 (m - 2^d) = d`. -/
lemma nu2_sub_pow (m d : Nat) (hm : m ≠ 0) (h : 2 ^ (d + 1) ∣ m) :
    nu2 (m - 2 ^ d) = d := by
  obtain ⟨a, ha⟩ := h
  have hpow : 0 < 2 ^ d := Nat.pos_pow_of_pos d (by norm_num)
  have hps : 2 ^ (d + 1) = 2 ^ d * 2 := pow_succ 2 d
  have ha0 : a ≠ 0 := by rintro rfl; omega
  have hb : 2 * a - 1 + 1 = 2 * a := by omega
  have hexp : m = 2 ^ d * (2 * a - 1) + 2 ^ d := by
    have hstep : 2 ^ d * (2 * a - 1 + 1) = 2 ^ d * (2 * a - 1) + 2 ^ d := by ring
    rw [hb] at hstep
    rw [ha, hps]
    calc 2 ^ d * 2 * a = 2 ^ d * (2 * a) := by ring
    _ = 2 ^ d * (2 * a - 1) + 2 ^ d := hstep
  have hval : m - 2 ^ d = 2 ^ d * (2 * a - 1) := by omega
  rw [hval]
  have hne : 2 ^ d * (2 * a - 1) ≠ 0 := by
    have := Nat.mul_pos hpow (show 0 < 2 * a - 1 by omega)
    omega
  refine nu2_eq_of _ d hne ⟨2 * a - 1, rfl⟩ ?_
  intro hcon
  rw [hps] at hcon
  have h2 : 2 ∣ (2 * a - 1) := (Nat.mul_dvd_mul_iff_left hpow).mp hcon
  omega

/-! ### Upsweep characterization -/

lemma upsweepIter_length (n d : Nat) :
    ∀ f i t, (upsweepIter n d f i t).length = t.length := by
  intro f
  induction f with
  | zero => intro i t; rfl
  | succ f ih =>
      intro i t
      simp only [upsweepIter]
      split
      · rw [ih, List.length_set]
      · rfl

/-- Pointwise characterization of one upsweep level starting at iteration
`i`: cell `j` becomes `t[j] + t[j - 2^d]` exactly when `j+1` is a multiple
of the stride `2^(d+1)` not yet passed, and is untouched otherwise. -/
lemma upsweepIter_getD (n d : Nat) (hn : 2 ^ (d + 1) ∣ n) :
    ∀ f i t, t.length = n → 2 ^ (d + 1) ∣ i → n ≤ i + f → ∀ j, j < n →
      (upsweepIter n d f i t).getD j 0 =
        if i ≤ j ∧ 2 ^ (d + 1) ∣ (j + 1) then
          t.getD j 0 + t.getD (j - 2 ^ d) 0
        else t.getD j 0 := by
  have hd : 0 < 2 ^ d := Nat.pos_pow_of_pos d (by norm_num)
  have hs2 : 2 ^ (d + 1) = 2 * 2 ^ d := by rw [pow_succ]; ring
  intro f
  induction f with
  | zero =>
      intro i t ht hdvd hf j hj
      have hc : ¬ (i ≤ j ∧ 2 ^ (d + 1) ∣ (j + 1)) := by rintro ⟨h1, _⟩; omega
      simp [upsweepIter, hc]
  | succ f ih =>
      intro i t ht hdvd hf j hj
      by_cases hi : i < n
      · have hin : i + 2 ^ (d + 1) ≤ n := dvd_next hdvd hn hi
        simp only [upsweepIter, hi, if_pos]
        set w := i + 2 ^ (d + 1) - 1 with hw
        set v := t.getD (i + 2 ^ (d + 1) - 1) 0 + t.getD (i + (2 ^ d - 1)) 0 with hv
        have hwlt : w < n := by omega
        have hdvd2 : 2 ^ (d + 1) ∣ (i + 2 ^ (d + 1)) := dvd_add hdvd (dvd_refl _)
        have hlen2 : (t.set w v).length = n := by rw [List.length_set]; exact ht
        rw [ih (i + 2 ^ (d + 1)) (t.set w v) hlen2 hdvd2 (by omega) j hj]
        by_cases hc : i ≤ j ∧ 2 ^ (d + 1) ∣ (j + 1)
        · obtain ⟨hc1, hc2⟩ := hc
          by_cases hjw : j = w
          · subst hjw
            have hcnot : ¬ (i + 2 ^ (d + 1) ≤ w ∧ 2 ^ (d + 1) ∣ (w + 1)) := by
              rintro ⟨h1, _⟩; omega
            rw [if_neg hcnot, if_pos ⟨hc1, hc2⟩, getD_set_self _ _ _ (by omega)]
            have hidx : w - 2 ^ d = i + (2 ^ d - 1) := by omega
            rw [hv, hidx]
          · have hnext : i + 2 ^ (d + 1) ≤ j + 1 :=
              dvd_next hdvd hc2 (by omega)
            have hne : j + 1 ≠ i + 2 ^ (d + 1) := by
              intro hcon; apply hjw; omega
            have hnext2 : i + 2 ^ (d + 1) + 2 ^ (d + 1) ≤ j + 1 :=
              dvd_next hdvd2 hc2 (by omega)
            have hstep : i + 2 ^ (d + 1) ≤ j := by omega
            have hread : j - 2 ^ d ≠ w := by
              intro hcon
              have hj2 : j + 1 = i + 2 ^ (d + 1) + 2 ^ d := by omega
              have hdvdsub : 2 ^ (d + 1) ∣ (2 ^ d) := by
                have h1 : 2 ^ (d + 1) ∣ (j + 1) := hc2
                have h2 : 2 ^ (d + 1) ∣ (i + 2 ^ (d + 1)) := hdvd2
                have h3 := Nat.dvd_sub' h1 h2
                rw [hj2] at h3
                simpa using h3
              have := Nat.le_of_dvd hd hdvdsub
              omega
            rw [if_pos ⟨hstep, hc2⟩, if_pos ⟨hc1, hc2⟩,
              getD_set_ne _ _ _ _ (by omega), getD_set_ne _ _ _ _ (fun hcon => hread hcon.symm)]
        · have hcnot : ¬ (i + 2 ^ (d + 1) ≤ j ∧ 2 ^ (d + 1) ∣ (j + 1)) := by
            rintro ⟨h1, h2⟩; exact hc ⟨by omega, h2⟩
          have hjw : j ≠ w := by
            intro hcon
            apply hc
            subst hcon
            constructor
            · omega
            · have : w + 1 = i + 2 ^ (d + 1) := by omega
              rw [this]; exact hdvd2
          rw [if_neg hcnot, if_neg hc, getD_set_ne _ _ _ _ (Ne.symm hjw)]
      · have hc : ¬ (i ≤ j ∧ 2 ^ (d + 1) ∣ (j + 1)) := by rintro ⟨h1, _⟩; omega
        simp [upsweepIter, hi, hc]

lemma upsweepLevels_length (n : Nat) :
    ∀ k d t, (upsweepLevels n d k t).length = t.length := by
  intro k
  induction k with
  | zero => intro d t; rfl
  | succ k ih =>
      intro d t
      show (upsweepLevels n (d + 1) k (upsweepIter n d n 0 t)).length = _
      rw [ih, upsweepIter_length]

/-- Invariant of the upsweep phase: after levels `d, ..., d+k-1`, cell `j`
holds the sum of the original values over the window of width
`2^(min (nu2 (j+1)) (d+k))` ending at `j`. -/
lemma upsweepLevels_getD (n L : Nat) (hnL : n = 2 ^ L) (g : Nat → Int) :
    ∀ k d t, t.length = n → d + k ≤ L →
      (∀ j, j < n →
        t.getD j 0 = ∑ x ∈ Finset.Ico (j + 1 - 2 ^ (min (nu2 (j + 1)) d)) (j + 1), g x) →
      ∀ j, j < n →
        (upsweepLevels n d k t).getD j 0 =
          ∑ x ∈ Finset.Ico (j + 1 - 2 ^ (min (nu2 (j + 1)) (d + k))) (j + 1), g x := by
  intro k
  induction k with
  | zero => intro d t ht hdk hinv j hj; exact hinv j hj
  | succ k ih =>
      intro d t ht hdk hinv j hj
      show (upsweepLevels n (d + 1) k (upsweepIter n d n 0 t)).getD j 0 = _
      have hdvdn : 2 ^ (d + 1) ∣ n := by rw [hnL]; exact pow_dvd_pow 2 (by omega)
      have hstep : ∀ j2, j2 < n →
          (upsweepIter n d n 0 t).getD j2 0 =
            ∑ x ∈ Finset.Ico (j2 + 1 - 2 ^ (min (nu2 (j2 + 1)) (d + 1))) (j2 + 1), g x := by
        intro j2 hj2
        rw [upsweepIter_getD n d hdvdn n 0 t ht (dvd_zero _) (by omega) j2 hj2]
        by_cases hc : 2 ^ (d + 1) ∣ (j2 + 1)
        · rw [if_pos ⟨Nat.zero_le _, hc⟩]
          have hnu : d + 1 ≤ nu2 (j2 + 1) := (pow_dvd_iff_le_nu2 _ _ (by omega)).mp hc
          have hge : 2 ^ (d + 1) ≤ j2 + 1 := Nat.le_of_dvd (by omega) hc
          have hs2 : 2 ^ (d + 1) = 2 * 2 ^ d := by rw [pow_succ]; ring
          have hd : 0 < 2 ^ d := Nat.pos_pow_of_pos d (by norm_num)
          have hm1 : min (nu2 (j2 + 1)) d = d := by omega
          have ht1 := hinv j2 hj2
          rw [hm1] at ht1
          have hj2' : j2 - 2 ^ d < n := by omega
          have ht2 := hinv (j2 - 2 ^ d) hj2'
          have hidx : j2 - 2 ^ d + 1 = j2 + 1 - 2 ^ d := by omega
          have hnu2v : nu2 (j2 + 1 - 2 ^ d) = d := nu2_sub_pow (j2 + 1) d (by omega) hc
          rw [hidx, hnu2v, min_self] at ht2
          have hmin : min (nu2 (j2 + 1)) (d + 1) = d + 1 := by omega
          rw [hmin, ht1, ht2]
          have hidx2 : j2 + 1 - 2 ^ d - 2 ^ d = j2 + 1 - 2 ^ (d + 1) := by omega
          rw [hidx2]
          have hsum := Finset.sum_Ico_consecutive g
            (show j2 + 1 - 2 ^ (d + 1) ≤ j2 + 1 - 2 ^ d by omega)
            (show j2 + 1 - 2 ^ d ≤ j2 + 1 by omega)
          rw [← hsum]
          exact add_comm _ _
        · rw [if_neg (by rintro ⟨_, h⟩; exact hc h)]
          have hnu : nu2 (j2 + 1) ≤ d := by
            by_contra hgt
            exact hc ((pow_dvd_iff_le_nu2 _ _ (by omega)).mpr (by omega))
          have hminr : min (nu2 (j2 + 1)) (d + 1) = min (nu2 (j2 + 1)) d := by omega
          rw [hminr]
          exact hinv j2 hj2
      have hlen : (upsweepIter n d n 0 t).length = n := by
        rw [upsweepIter_length]; exact ht
      have hres := ih (d + 1) (upsweepIter n d n 0 t) hlen (by omega) hstep j hj
      rw [hres]
      have harith : d + 1 + k = d + (k + 1) := by omega
      rw [harith]

/-! ### Downsweep characterization -/

lemma downsweepIter_length (n d : Nat) :
    ∀ f i t, (downsweepIter n d f i t).length = t.length := by
  intro f
  induction f with
  | zero => intro i t; rfl
  | succ f ih =>
      intro i t
      simp only [downsweepIter]
      split
      · rw [ih, List.length_set, List.length_set]
      · rfl

/-- Pointwise characterization of one downsweep level starting at iteration
`i`: among cells `j ≥ i` whose `j+1` is a multiple of `2^d`, the odd
multiples receive the value of their partner `t[j + 2^d]` and the even
multiples receive `t[j] + t[j - 2^d]`; all other cells are untouched. -/
lemma downsweepIter_getD (n d : Nat) (hn : 2 ^ (d + 1) ∣ n) :
    ∀ f i t, t.length = n → 2 ^ (d + 1) ∣ i → n ≤ i + f → ∀ j, j < n →
      (downsweepIter n d f i t).getD j 0 =
        if i ≤ j ∧ 2 ^ d ∣ (j + 1) then
          (if 2 ^ (d + 1) ∣ (j + 1) then t.getD j 0 + t.getD (j - 2 ^ d) 0
           else t.getD (j + 2 ^ d) 0)
        else t.getD j 0 := by
  have hd : 0 < 2 ^ d := Nat.pos_pow_of_pos d (by norm_num)
  have hs2 : 2 ^ (d + 1) = 2 * 2 ^ d := by rw [pow_succ]; ring
  intro f
  induction f with
  | zero =>
      intro i t ht hdvd hf j hj
      have hc : ¬ (i ≤ j ∧ 2 ^ d ∣ (j + 1)) := by rintro ⟨h1, _⟩; omega
      simp [downsweepIter, hc]
  | succ f ih =>
      intro i t ht hdvd hf j hj
      by_cases hi : i < n
      · have hin : i + 2 ^ (d + 1) ≤ n := dvd_next hdvd hn hi
        have hdvd_d : 2 ^ d ∣ i := dvd_trans (pow_dvd_pow 2 (by omega)) hdvd
        simp only [downsweepIter, hi, if_pos]
        set j1 := i + (2 ^ d - 1) with hj1def
        set w2 := i + 2 ^ (d + 1) - 1 with hw2def
        have hj1w2 : j1 ≠ w2 := by omega
        have hj1lt : j1 < n := by omega
        have hw2lt : w2 < n := by omega
        set temp1 := t.set j1 (t.getD w2 0) with htemp1
        set temp2 := temp1.set w2 (temp1.getD w2 0 + t.getD j1 0) with htemp2
        have hlen1 : temp1.length = n := by rw [htemp1, List.length_set]; exact ht
        have hlen2 : temp2.length = n := by rw [htemp2, List.length_set]; exact hlen1
        have h1w2 : temp1.getD w2 0 = t.getD w2 0 := by
          rw [htemp1, getD_set_ne _ _ _ _ hj1w2]
        have h2j1 : temp2.getD j1 0 = t.getD w2 0 := by
          rw [htemp2, getD_set_ne _ _ _ _ (Ne.symm hj1w2), htemp1,
            getD_set_self _ _ _ (by omega)]
        have h2w2 : temp2.getD w2 0 = t.getD w2 0 + t.getD j1 0 := by
          rw [htemp2, getD_set_self _ _ _ (by omega), h1w2]
        have h2other : ∀ x, x ≠ j1 → x ≠ w2 → temp2.getD x 0 = t.getD x 0 := by
          intro x hx1 hx2
          rw [htemp2, getD_set_ne _ _ _ _ (Ne.symm hx2), htemp1,
            getD_set_ne _ _ _ _ (Ne.symm hx1)]
        have hdvd2 : 2 ^ (d + 1) ∣ (i + 2 ^ (d + 1)) := dvd_add hdvd (dvd_refl _)
        rw [ih (i + 2 ^ (d + 1)) temp2 hlen2 hdvd2 (by omega) j hj]
        by_cases hcond : i ≤ j ∧ 2 ^ d ∣ (j + 1)
        · obtain ⟨hc1, hc2⟩ := hcond
          by_cases hj_j1 : j = j1
          · subst hj_j1
            have hcnot : ¬ (i + 2 ^ (d + 1) ≤ j1 ∧ 2 ^ d ∣ (j1 + 1)) := by
              rintro ⟨h1, _⟩; omega
            rw [if_neg hcnot, h2j1, if_pos ⟨hc1, hc2⟩]
            have hinner : ¬ 2 ^ (d + 1) ∣ (j1 + 1) := by
              intro hcon
              have hsub := Nat.dvd_sub' hcon hdvd
              have hidx : j1 + 1 - i = 2 ^ d := by omega
              rw [hidx] at hsub
              have := Nat.le_of_dvd hd hsub
              omega
            rw [if_neg hinner]
            have hidx : j1 + 2 ^ d = w2 := by omega
            rw [hidx]
          · by_cases hj_w2 : j = w2
            · subst hj_w2
              have hcnot : ¬ (i + 2 ^ (d + 1) ≤ w2 ∧ 2 ^ d ∣ (w2 + 1)) := by
                rintro ⟨h1, _⟩; omega
              rw [if_neg hcnot, h2w2, if_pos ⟨hc1, hc2⟩]
              have hinner : 2 ^ (d + 1) ∣ (w2 + 1) := by
                have hidx : w2 + 1 = i + 2 ^ (d + 1) := by omega
                rw [hidx]; exact hdvd2
              rw [if_pos hinner]
              have hidx : w2 - 2 ^ d = j1 := by omega
              rw [hidx]
            · have hstep1 : i + 2 ^ d ≤ j + 1 := dvd_next hdvd_d hc2 (by omega)
              have hne1 : j + 1 ≠ i + 2 ^ d := by intro hcon; apply hj_j1; omega
              have hstep2 : i + 2 ^ d + 2 ^ d ≤ j + 1 :=
                dvd_next (dvd_add hdvd_d (dvd_refl _)) hc2 (by omega)
              have hne2 : j + 1 ≠ i + 2 ^ (d + 1) := by intro hcon; apply hj_w2; omega
              have hdvd_d2 : 2 ^ d ∣ (i + 2 ^ (d + 1)) := dvd_add hdvd_d ⟨2, pow_succ 2 d⟩
              have hstep3 : i + 2 ^ (d + 1) + 2 ^ d ≤ j + 1 :=
                dvd_next hdvd_d2 hc2 (by omega)
              have houter : i + 2 ^ (d + 1) ≤ j := by omega
              by_cases hc3 : 2 ^ (d + 1) ∣ (j + 1)
              · have hstep4 : i + 2 ^ (d + 1) + 2 ^ (d + 1) ≤ j + 1 :=
                  dvd_next hdvd2 hc3 (by omega)
                simp only [if_pos (And.intro houter hc2), if_pos (And.intro hc1 hc2),
                  if_pos hc3]
                rw [h2other j (by omega) (by omega),
                  h2other (j - 2 ^ d) (by omega) (by omega)]
              · simp only [if_pos (And.intro houter hc2), if_pos (And.intro hc1 hc2),
                  if_neg hc3]
                rw [h2other (j + 2 ^ d) (by omega) (by omega)]
        · have hcnot : ¬ (i + 2 ^ (d + 1) ≤ j ∧ 2 ^ d ∣ (j + 1)) := by
            rintro ⟨h1, h2⟩; exact hcond ⟨by omega, h2⟩
          rw [if_neg hcnot, if_neg hcond]
          have hj_j1 : j ≠ j1 := by
            intro hcon
            apply hcond
            subst hcon
            refine ⟨by omega, ?_⟩
            have hidx : j1 + 1 = i + 2 ^ d := by omega
            rw [hidx]
            exact dvd_add hdvd_d (dvd_refl _)
          have hj_w2 : j ≠ w2 := by
            intro hcon
            apply hcond
            subst hcon
            refine ⟨by omega, ?_⟩
            have hidx : w2 + 1 = i + 2 ^ (d + 1) := by omega
            rw [hidx]
            exact dvd_add hdvd_d ⟨2, pow_succ 2 d⟩
          exact h2other j hj_j1 hj_w2
      · have hc : ¬ (i ≤ j ∧ 2 ^ d ∣ (j + 1)) := by rintro ⟨h1, _⟩; omega
        simp [downsweepIter, hi, hc]

lemma downsweepLevels_length (n : Nat) :
    ∀ c t, (downsweepLevels n c t).length = t.length := by
  intro c
  induction c with
  | zero => intro t; rfl
  | succ c ih =>
      intro t
      show (downsweepLevels n c (downsweepIter n c n 0 t)).length = _
      rw [ih, downsweepIter_length]

/-- Invariant of the downsweep phase: if before running levels
`c-1, ..., 0` every cell `j` whose `j+1` is a multiple of `2^c` holds the
exclusive prefix sum up to the start of its `2^c`-block and every other
cell still holds its upsweep window sum, then afterwards every cell `j`
holds the exclusive prefix sum `g 0 + ... + g (j-1)`. -/
lemma downsweepLevels_getD (n L : Nat) (hnL : n = 2 ^ L) (g : Nat → Int) :
    ∀ c t, t.length = n → c ≤ L →
      (∀ j, j < n →
        t.getD j 0 = if c ≤ nu2 (j + 1) then ∑ x ∈ Finset.Ico 0 (j + 1 - 2 ^ c), g x
          else ∑ x ∈ Finset.Ico (j + 1 - 2 ^ (nu2 (j + 1))) (j + 1), g x) →
      ∀ j, j < n → (downsweepLevels n c t).getD j 0 = ∑ x ∈ Finset.Ico 0 j, g x := by
  intro c
  induction c with
  | zero =>
      intro t ht hc hinv j hj
      have hval := hinv j hj
      rw [if_pos (Nat.zero_le _)] at hval
      show t.getD j 0 = _
      rw [hval]
      have h1 : j + 1 - 2 ^ 0 = j := by norm_num
      rw [h1]
  | succ c ih =>
      intro t ht hc hinv j hj
      show (downsweepLevels n c (downsweepIter n c n 0 t)).getD j 0 = _
      have hdvdn : 2 ^ (c + 1) ∣ n := by rw [hnL]; exact pow_dvd_pow 2 (by omega)
      have hd : 0 < 2 ^ c := Nat.pos_pow_of_pos c (by norm_num)
      have hs2 : 2 ^ (c + 1) = 2 * 2 ^ c := by rw [pow_succ]; ring
      have hlen : (downsweepIter n c n 0 t).length = n := by
        rw [downsweepIter_length]; exact ht
      refine ih (downsweepIter n c n 0 t) hlen (by omega) ?_ j hj
      intro j2 hj2
      rw [downsweepIter_getD n c hdvdn n 0 t ht (dvd_zero _) (by omega) j2 hj2]
      by_cases hcd : 2 ^ c ∣ (j2 + 1)
      · rw [if_pos ⟨Nat.zero_le _, hcd⟩]
        have hnuc : c ≤ nu2 (j2 + 1) := (pow_dvd_iff_le_nu2 _ _ (by omega)).mp hcd
        by_cases hcd1 : 2 ^ (c + 1) ∣ (j2 + 1)
        · rw [if_pos hcd1]
          have hnuc1 : c + 1 ≤ nu2 (j2 + 1) := (pow_dvd_iff_le_nu2 _ _ (by omega)).mp hcd1
          have hge : 2 ^ (c + 1) ≤ j2 + 1 := Nat.le_of_dvd (by omega) hcd1
          have ht1 := hinv j2 hj2
          rw [if_pos hnuc1] at ht1
          have hj2' : j2 - 2 ^ c < n := by omega
          have ht2 := hinv (j2 - 2 ^ c) hj2'
          have hidx : j2 - 2 ^ c + 1 = j2 + 1 - 2 ^ c := by omega
          have hnu2v : nu2 (j2 + 1 - 2 ^ c) = c := nu2_sub_pow (j2 + 1) c (by omega) hcd1
          rw [hidx, hnu2v, if_neg (by omega)] at ht2
          rw [ht1, ht2, if_pos hnuc]
          have hidx2 : j2 + 1 - 2 ^ c - 2 ^ c = j2 + 1 - 2 ^ (c + 1) := by omega
          rw [hidx2]
          exact Finset.sum_Ico_consecutive g (by omega) (by omega)
        · rw [if_neg hcd1]
          have hnueq : nu2 (j2 + 1) = c := nu2_eq_of _ c (by omega) hcd hcd1
          have hgec : 2 ^ c ≤ j2 + 1 := Nat.le_of_dvd (by omega) hcd
          obtain ⟨b, hb⟩ := hcd
          have hbodd : ¬ 2 ∣ b := by
            rintro ⟨x, hx⟩
            exact hcd1 ⟨x, by rw [hb, hx, hs2]; ring⟩
          obtain ⟨x, hx⟩ : ∃ x, b = 2 * x + 1 := ⟨b / 2, by omega⟩
          have hdvd3 : 2 ^ (c + 1) ∣ (j2 + 1 + 2 ^ c) :=
            ⟨x + 1, by rw [hb, hx, hs2]; ring⟩
          have hlt : j2 + 2 ^ c < n := by
            by_contra hge2
            push_neg at hge2
            have h1 : n < j2 + 1 + 2 ^ c := by omega
            have h2 := dvd_next hdvdn hdvd3 h1
            omega
          have ht3 := hinv (j2 + 2 ^ c) hlt
          have hidx : j2 + 2 ^ c + 1 = j2 + 1 + 2 ^ c := by omega
          rw [hidx] at ht3
          have hnuc3 : c + 1 ≤ nu2 (j2 + 1 + 2 ^ c) :=
            (pow_dvd_iff_le_nu2 _ _ (by omega)).mp hdvd3
          rw [if_pos hnuc3] at ht3
          rw [ht3, if_pos hnuc]
          have hidx2 : j2 + 1 + 2 ^ c - 2 ^ (c + 1) = j2 + 1 - 2 ^ c := by omega
          rw [hidx2]
      · rw [if_neg (by rintro ⟨_, h⟩; exact hcd h)]
        have hnult : nu2 (j2 + 1) < c := by
          by_contra hge2
          exact hcd ((pow_dvd_iff_le_nu2 _ _ (by omega)).mpr (by omega))
        have hval := hinv j2 hj2
        rw [if_neg (by omega)] at hval
        rw [hval, if_neg (by omega)]

/-! ### Blelloch scan: assembled correctness -/

lemma blelloch_pad_length (arr : List Int) :
    (blelloch_pad arr).length = 2 ^ log2_ceil arr.length := by
  unfold blelloch_pad
  rw [List.length_map, List.length_range]

lemma blelloch_pad_getD (arr : List Int) (j : Nat) (hj : j < 2 ^ log2_ceil arr.length) :
    (blelloch_pad arr).getD j 0 = if j < arr.length then arr.getD j 0 else 0 := by
  unfold blelloch_pad
  rw [getD_range_map _ _ j hj]

lemma parallel_prefix_sum_blelloch_length (arr : List Int) :
    (parallel_prefix_sum_blelloch arr).length = arr.length := by
  unfold parallel_prefix_sum_blelloch
  rw [List.length_map, List.length_range]

/-- The Blelloch scan computes the inclusive prefix sum at every in-range
index. -/
lemma parallel_prefix_sum_blelloch_getD (arr : List Int) (i : Nat) (hi : i < arr.length) :
    (parallel_prefix_sum_blelloch arr).getD i 0 =
      ∑ x ∈ Finset.Ico 0 (i + 1), arr.getD x 0 := by
  set n0 := arr.length with hn0
  set L := log2_ceil n0 with hL
  set n := 2 ^ L with hn
  have hn0n : n0 ≤ n := le_two_pow_log2_ceil n0
  have hnpos : 0 < n := Nat.pos_pow_of_pos L (by norm_num)
  set g := fun x => (blelloch_pad arr).getD x 0 with hg
  have hpadlen : (blelloch_pad arr).length = n := blelloch_pad_length arr
  have hinv0 : ∀ j, j < n → (blelloch_pad arr).getD j 0 =
      ∑ x ∈ Finset.Ico (j + 1 - 2 ^ (min (nu2 (j + 1)) 0)) (j + 1), g x := by
    intro j hj
    have hm : min (nu2 (j + 1)) 0 = 0 := by omega
    rw [hm, pow_zero]
    have hj1 : j + 1 - 1 = j := by omega
    rw [hj1]
    simp [hg]
  have hup := upsweepLevels_getD n L hn g L 0 (blelloch_pad arr) hpadlen (by omega) hinv0
  set t1 := upsweepLevels n 0 L (blelloch_pad arr) with ht1
  have ht1len : t1.length = n := by rw [ht1, upsweepLevels_length]; exact hpadlen
  set t2 := t1.set (n - 1) 0 with ht2
  have ht2len : t2.length = n := by rw [ht2, List.length_set]; exact ht1len
  have hinvL : ∀ j, j < n →
      t2.getD j 0 = if L ≤ nu2 (j + 1) then ∑ x ∈ Finset.Ico 0 (j + 1 - 2 ^ L), g x
        else ∑ x ∈ Finset.Ico (j + 1 - 2 ^ (nu2 (j + 1))) (j + 1), g x := by
    intro j hj
    by_cases hcase : L ≤ nu2 (j + 1)
    · have hdvd : 2 ^ L ∣ (j + 1) := (pow_dvd_iff_le_nu2 _ _ (by omega)).mpr hcase
      have hge : 2 ^ L ≤ j + 1 := Nat.le_of_dvd (by omega) hdvd
      have hj2 : j = n - 1 := by omega
      subst hj2
      rw [if_pos hcase, ht2, getD_set_self _ _ _ (by omega)]
      have hz : n - 1 + 1 - 2 ^ L = 0 := by omega
      rw [hz]
      simp
    · rw [if_neg hcase]
      have hjn1 : j ≠ n - 1 := by
        intro hcon
        apply hcase
        subst hcon
        have hpow : n - 1 + 1 = 2 ^ L := by omega
        rw [hpow, nu2_two_pow]
      rw [ht2, getD_set_ne _ _ _ _ (fun hcon => hjn1 hcon.symm)]
      have hupj := hup j hj
      rw [Nat.zero_add] at hupj
      have hm : min (nu2 (j + 1)) L = nu2 (j + 1) := by omega
      rw [hm] at hupj
      exact hupj
  have hdown := downsweepLevels_getD n L hn g L t2 ht2len (le_refl L) hinvL
  have hresult : parallel_prefix_sum_blelloch arr =
      (List.range n0).map (fun k => (downsweepLevels n L t2).getD k 0 + arr.getD k 0) := rfl
  rw [hresult, getD_range_map _ _ i hi, hdown i (by omega)]
  have hnn : (2 : Nat) ^ log2_ceil arr.length = n := by rw [hn, hL, hn0]
  have hcongr : ∑ x ∈ Finset.Ico 0 i, g x = ∑ x ∈ Finset.Ico 0 i, arr.getD x 0 := by
    apply Finset.sum_congr rfl
    intro x hx
    have hxi : x < i := (Finset.mem_Ico.mp hx).2
    rw [hg]
    simp only []
    rw [blelloch_pad_getD arr x (by omega), if_pos (by omega)]
  rw [hcongr, Finset.sum_Ico_succ_top (Nat.zero_le i)]

/-! ### Sequential scan characterization -/

lemma seqScanIter_length (arr : List Int) (n : Nat) :
    ∀ f i r, (seqScanIter arr n f i r).length = r.length := by
  intro f
  induction f with
  | zero => intro i r; rfl
  | succ f ih =>
      intro i r
      simp only [seqScanIter]
      split
      · rw [ih, List.length_set]
      · rfl

lemma seqScanIter_getD (arr : List Int) (n : Nat) :
    ∀ f i r, r.length = n → 1 ≤ i → n ≤ i + f →
      (∀ j, j < i → r.getD j 0 = ∑ x ∈ Finset.Ico 0 (j + 1), arr.getD x 0) →
      ∀ j, j < n →
        (seqScanIter arr n f i r).getD j 0 = ∑ x ∈ Finset.Ico 0 (j + 1), arr.getD x 0 := by
  intro f
  induction f with
  | zero =>
      intro i r hr h1 hf hinv j hj
      exact hinv j (by omega)
  | succ f ih =>
      intro i r hr h1 hf hinv j hj
      by_cases hi : i < n
      · simp only [seqScanIter, hi, if_pos]
        refine ih (i + 1) _ (by rw [List.length_set]; exact hr) (by omega) (by omega) ?_ j hj
        intro j2 hj2
        by_cases hj2i : j2 = i
        · rw [hj2i]
          rw [getD_set_self _ _ _ (by omega)]
          have hprev := hinv (i - 1) (by omega)
          have hidx : i - 1 + 1 = i := by omega
          rw [hidx] at hprev
          rw [hprev, ← Finset.sum_Ico_succ_top (Nat.zero_le i)]
        · rw [getD_set_ne _ _ _ _ (fun hcon => hj2i hcon.symm)]
          exact hinv j2 (by omega)
      · simp only [seqScanIter, hi, if_neg, not_false_iff]
        exact hinv j (by omega)

lemma sequential_prefix_sum_length (arr : List Int) :
    (sequential_prefix_sum arr).length = arr.length := by
  simp only [sequential_prefix_sum]
  by_cases h : arr.length = 0
  · rw [if_pos h, List.length_replicate]
  · rw [if_neg h, seqScanIter_length, List.length_set, List.length_replicate]

/-- The sequential scan computes the inclusive prefix sum at every in-range
index. -/
lemma sequential_prefix_sum_getD (arr : List Int) (i : Nat) (hi : i < arr.length) :
    (sequential_prefix_sum arr).getD i 0 = ∑ x ∈ Finset.Ico 0 (i + 1), arr.getD x 0 := by
  simp only [sequential_prefix_sum]
  have hn : ¬ arr.length = 0 := by omega
  rw [if_neg hn]
  refine seqScanIter_getD arr arr.length arr.length 1 _
    (by rw [List.length_set, List.length_replicate]) (le_refl 1) (by omega) ?_ i hi
  intro j hj
  have hj0 : j = 0 := by omega
  subst hj0
  rw [getD_set_self _ _ _ (by rw [List.length_replicate]; omega)]
  simp

/-! ### Block-decomposition engine: phase 1 -/

lemma getD_append_left (a b : List Int) (i : Nat) (h : i < a.length) :
    (a ++ b).getD i 0 = a.getD i 0 := by
  rw [List.getD_eq_getElem?_getD, List.getD_eq_getElem?_getD, List.getElem?_append_left h]

lemma getD_append_right (a b : List Int) (i : Nat) :
    (a ++ b).getD (a.length + i) 0 = b.getD i 0 := by
  rw [List.getD_eq_getElem?_getD, List.getD_eq_getElem?_getD,
    List.getElem?_append_right (by omega)]
  have hidx : a.length + i - a.length = i := by omega
  rw [hidx]

lemma phase1Iter_length (arr : List Int) (e : Nat) :
    ∀ f i ls r, (phase1Iter arr e f i ls r).1.length = r.length := by
  intro f
  induction f with
  | zero => intro i ls r; rfl
  | succ f ih =>
      intro i ls r
      simp only [phase1Iter]
      split
      · rw [ih, List.length_set]
      · rfl

/-- Characterization of the phase-1 inner loop: it writes the running local
sum (seeded with `ls`) into each cell of `[i, e)` and returns the final
local sum. -/
lemma phase1Iter_spec (arr : List Int) (e n : Nat) :
    ∀ f i ls r, r.length = n → e ≤ i + f →
      (∀ j, j < n →
        (phase1Iter arr e f i ls r).1.getD j 0 =
          if i ≤ j ∧ j < e then ls + ∑ x ∈ Finset.Ico i (j + 1), arr.getD x 0
          else r.getD j 0) ∧
      (phase1Iter arr e f i ls r).2 =
        (if i < e then ls + ∑ x ∈ Finset.Ico i e, arr.getD x 0 else ls) := by
  intro f
  induction f with
  | zero =>
      intro i ls r hr hf
      constructor
      · intro j hj
        have hc : ¬ (i ≤ j ∧ j < e) := by rintro ⟨h1, h2⟩; omega
        simp [phase1Iter, hc]
      · have hc : ¬ i < e := by omega
        simp [phase1Iter, hc]
  | succ f ih =>
      intro i ls r hr hf
      by_cases hi : i < e
      · simp only [phase1Iter, hi, if_pos]
        obtain ⟨ih1, ih2⟩ := ih (i + 1) (ls + arr.getD i 0)
          (r.set i (ls + arr.getD i 0)) (by rw [List.length_set]; exact hr) (by omega)
        constructor
        · intro j hj
          rw [ih1 j hj]
          by_cases hc : i ≤ j ∧ j < e
          · obtain ⟨hc1, hc2⟩ := hc
            by_cases hji : j = i
            · rw [hji]
              rw [if_neg (by rintro ⟨h1, _⟩; omega), getD_set_self _ _ _ (by omega),
                if_pos ⟨le_refl i, hi⟩]
              simp
            · rw [if_pos ⟨by omega, hc2⟩, if_pos ⟨hc1, hc2⟩, add_assoc]
              congr 1
              have hsing : (arr.getD i 0 : Int) = ∑ x ∈ Finset.Ico i (i + 1), arr.getD x 0 := by
                simp
              rw [hsing]
              exact Finset.sum_Ico_consecutive _ (by omega) (by omega)
          · rw [if_neg (by rintro ⟨h1, h2⟩; exact hc ⟨by omega, h2⟩), if_neg hc]
            have hji : j ≠ i := by
              intro hcon
              exact hc ⟨by omega, by omega⟩
            rw [getD_set_ne _ _ _ _ (fun hcon => hji hcon.symm)]
        · rw [ih2]
          by_cases hi2 : i + 1 < e
          · rw [if_pos hi2, add_assoc]
            congr 1
            have hsing : (arr.getD i 0 : Int) = ∑ x ∈ Finset.Ico i (i + 1), arr.getD x 0 := by
              simp
            rw [hsing]
            exact Finset.sum_Ico_consecutive _ (by omega) (by omega)
          · rw [if_neg hi2]
            have he2 : e = i + 1 := by omega
            rw [he2]
            congr 1
            simp
      · constructor
        · intro j hj
          have hc : ¬ (i ≤ j ∧ j < e) := by rintro ⟨h1, h2⟩; omega
          simp [phase1Iter, hi, hc]
        · simp [phase1Iter, hi]

/-- Characterization of one phase-1 block: thread `tid` writes the local
inclusive scan of its chunk and returns the chunk sum (`0` for an empty
chunk, matching the untouched `block_sums` initializer). -/
lemma phase1Block_spec (arr : List Int) (n chunk tid : Nat) (r : List Int)
    (hr : r.length = n) :
    ((phase1Block arr n chunk tid r).1.length = n) ∧
    (∀ j, j < n →
      (phase1Block arr n chunk tid r).1.getD j 0 =
        if tid * chunk ≤ j ∧ j < min (tid * chunk + chunk) n then
          ∑ x ∈ Finset.Ico (tid * chunk) (j + 1), arr.getD x 0
        else r.getD j 0) ∧
    (phase1Block arr n chunk tid r).2 =
      ∑ x ∈ Finset.Ico (tid * chunk) (min (tid * chunk + chunk) n), arr.getD x 0 := by
  unfold phase1Block
  set start := tid * chunk with hstart
  set e := min (start + chunk) n with he
  have hen : e ≤ n := by omega
  by_cases hse : start < e
  · rw [if_pos hse]
    obtain ⟨ih1, ih2⟩ := phase1Iter_spec arr e n n (start + 1) (arr.getD start 0)
      (r.set start (arr.getD start 0)) (by rw [List.length_set]; exact hr) (by omega)
    refine ⟨?_, ?_, ?_⟩
    · rw [phase1Iter_length, List.length_set]; exact hr
    · intro j hj
      rw [ih1 j hj]
      by_cases hc : start ≤ j ∧ j < e
      · obtain ⟨hc1, hc2⟩ := hc
        by_cases hjs : j = start
        · rw [hjs, if_neg (by rintro ⟨h1, _⟩; omega), getD_set_self _ _ _ (by omega),
            if_pos ⟨le_refl _, hse⟩]
          simp
        · rw [if_pos ⟨by omega, hc2⟩, if_pos ⟨hc1, hc2⟩]
          have hsing : (arr.getD start 0 : Int) =
              ∑ x ∈ Finset.Ico start (start + 1), arr.getD x 0 := by simp
          rw [hsing]
          exact Finset.sum_Ico_consecutive _ (by omega) (by omega)
      · rw [if_neg (by rintro ⟨h1, h2⟩; exact hc ⟨by omega, h2⟩), if_neg hc]
        have hjs : j ≠ start := by
          intro hcon
          exact hc ⟨by omega, by omega⟩
        rw [getD_set_ne _ _ _ _ (fun hcon => hjs hcon.symm)]
    · rw [ih2]
      by_cases hs2 : start + 1 < e
      · rw [if_pos hs2]
        have hsing : (arr.getD start 0 : Int) =
            ∑ x ∈ Finset.Ico start (start + 1), arr.getD x 0 := by simp
        rw [hsing]
        exact Finset.sum_Ico_consecutive _ (by omega) (by omega)
      · rw [if_neg hs2]
        have he2 : e = start + 1 := by omega
        rw [he2]
        simp
  · rw [if_neg hse]
    refine ⟨hr, ?_, ?_⟩
    · intro j hj
      rw [if_neg (by rintro ⟨h1, h2⟩; omega)]
    · have hico : Finset.Ico start e = ∅ := Finset.Ico_eq_empty (by omega)
      rw [hico, Finset.sum_empty]

/-- Characterization of phase 1 over threads `tid, ..., tid+k-1`: the block
sums are appended in thread order and every cell of a processed chunk holds
the local inclusive scan of its own chunk (the chunk of index `j` starts at
`(j / chunk) * chunk`). -/
lemma phase1All_spec (arr : List Int) (n chunk : Nat) (hchunk : 0 < chunk) :
    ∀ k tid r sums, r.length = n →
      ((phase1All arr n chunk k tid r sums).1.length = n) ∧
      ((phase1All arr n chunk k tid r sums).2.length = sums.length + k) ∧
      (∀ σ, σ < sums.length →
        (phase1All arr n chunk k tid r sums).2.getD σ 0 = sums.getD σ 0) ∧
      (∀ τ, τ < k →
        (phase1All arr n chunk k tid r sums).2.getD (sums.length + τ) 0 =
          ∑ x ∈ Finset.Ico ((tid + τ) * chunk) (min ((tid + τ) * chunk + chunk) n),
            arr.getD x 0) ∧
      (∀ j, j < n → j < tid * chunk →
        (phase1All arr n chunk k tid r sums).1.getD j 0 = r.getD j 0) ∧
      (∀ j, j < n → tid * chunk ≤ j → j < (tid + k) * chunk →
        (phase1All arr n chunk k tid r sums).1.getD j 0 =
          ∑ x ∈ Finset.Ico ((j / chunk) * chunk) (j + 1), arr.getD x 0) := by
  intro k
  induction k with
  | zero =>
      intro tid r sums hr
      refine ⟨hr, by simp [phase1All], ?_, ?_, ?_, ?_⟩
      · intro σ hσ; rfl
      · intro τ hτ; omega
      · intro j hj hjt; rfl
      · intro j hj h1 h2
        rw [Nat.add_zero] at h2
        omega
  | succ k ih =>
      intro tid r sums hr
      obtain ⟨hb1, hb2, hb3⟩ := phase1Block_spec arr n chunk tid r hr
      have hunfold : phase1All arr n chunk (k + 1) tid r sums =
          phase1All arr n chunk k (tid + 1) (phase1Block arr n chunk tid r).1
            (sums ++ [(phase1Block arr n chunk tid r).2]) := rfl
      rw [hunfold]
      obtain ⟨ih1, ih2, ih3, ih4, ih5, ih6⟩ :=
        ih (tid + 1) (phase1Block arr n chunk tid r).1
          (sums ++ [(phase1Block arr n chunk tid r).2]) hb1
      have hlen2 : (sums ++ [(phase1Block arr n chunk tid r).2]).length = sums.length + 1 := by
        rw [List.length_append, List.length_cons, List.length_nil]
      refine ⟨ih1, ?_, ?_, ?_, ?_, ?_⟩
      · rw [ih2, hlen2]; omega
      · intro σ hσ
        rw [ih3 σ (by omega), getD_append_left _ _ _ (by omega)]
      · intro τ hτ
        rcases Nat.eq_zero_or_pos τ with rfl | hτpos
        · rw [Nat.add_zero sums.length, Nat.add_zero tid]
          rw [ih3 sums.length (by omega)]
          have h2 : (sums ++ [(phase1Block arr n chunk tid r).2]).getD sums.length 0 =
              (phase1Block arr n chunk tid r).2 := by
            have hget := getD_append_right sums [(phase1Block arr n chunk tid r).2] 0
            rw [Nat.add_zero sums.length] at hget
            rw [hget]
            rfl
          rw [h2, hb3]
        · obtain ⟨τ2, rfl⟩ : ∃ τ2, τ = τ2 + 1 := ⟨τ - 1, by omega⟩
          have hidx : sums.length + (τ2 + 1) = (sums.length + 1) + τ2 := by omega
          rw [hidx, ← hlen2, ih4 τ2 (by omega)]
          have hidx2 : tid + 1 + τ2 = tid + (τ2 + 1) := by omega
          rw [hidx2]
      · intro j hj hjt
        have hmul : (tid + 1) * chunk = tid * chunk + chunk := by ring
        rw [ih5 j hj (by omega), hb2 j hj, if_neg (by rintro ⟨hx, _⟩; omega)]
      · intro j hj h1 h2
        by_cases hblk : j < (tid + 1) * chunk
        · have hje : j < min (tid * chunk + chunk) n := by
            have : (tid + 1) * chunk = tid * chunk + chunk := by ring
            omega
          rw [ih5 j hj (by omega), hb2 j hj, if_pos ⟨h1, hje⟩]
          have hdiv : j / chunk = tid := Nat.div_eq_of_lt_le h1 hblk
          rw [hdiv]
        · rw [ih6 j hj (by omega) (by
            have harith : (tid + 1 + k) * chunk = (tid + (k + 1)) * chunk := by ring
            omega)]

/-! ### Block-decomposition engine: phases 2 and 3 -/

lemma blockOffsetsIter_spec (sums : List Int) (w : Nat) :
    ∀ f i bp, bp.length = w → 1 ≤ i → w ≤ i + f →
      (∀ t, t < i → bp.getD t 0 = ∑ x ∈ Finset.Ico 0 t, sums.getD x 0) →
      ∀ t, t < w →
        (blockOffsetsIter sums w f i bp).getD t 0 = ∑ x ∈ Finset.Ico 0 t, sums.getD x 0 := by
  intro f
  induction f with
  | zero =>
      intro i bp hbp h1 hf hinv t ht
      simp only [blockOffsetsIter]
      exact hinv t (by omega)
  | succ f ih =>
      intro i bp hbp h1 hf hinv t ht
      by_cases hi : i < w
      · simp only [blockOffsetsIter, hi, if_pos]
        refine ih (i + 1) _ (by rw [List.length_set]; exact hbp) (by omega) (by omega) ?_ t ht
        intro t2 ht2
        by_cases ht2i : t2 = i
        · rw [ht2i, getD_set_self _ _ _ (by omega)]
          rw [hinv (i - 1) (by omega)]
          have hsucc := Finset.sum_Ico_succ_top (Nat.zero_le (i - 1))
            (fun x => sums.getD x 0)
          have hidx : i - 1 + 1 = i := by omega
          rw [hidx] at hsucc
          rw [hsucc]
        · rw [getD_set_ne _ _ _ _ (fun hcon => ht2i hcon.symm)]
          exact hinv t2 (by omega)
      · simp only [blockOffsetsIter, hi, if_neg, not_false_iff]
        exact hinv t (by omega)

lemma phase3Iter_length (bp : List Int) (tid e : Nat) :
    ∀ f i r, (phase3Iter bp tid e f i r).length = r.length := by
  intro f
  induction f with
  | zero => intro i r; rfl
  | succ f ih =>
      intro i r
      simp only [phase3Iter]
      split
      · rw [ih, List.length_set]
      · rfl

lemma phase3Iter_spec (bp : List Int) (tid e : Nat) :
    ∀ f i r, e ≤ r.length → e ≤ i + f → ∀ j, j < r.length →
      (phase3Iter bp tid e f i r).getD j 0 =
        if i ≤ j ∧ j < e then r.getD j 0 + bp.getD tid 0 else r.getD j 0 := by
  intro f
  induction f with
  | zero =>
      intro i r hr hf j hj
      have hc : ¬ (i ≤ j ∧ j < e) := by rintro ⟨h1, h2⟩; omega
      simp [phase3Iter, hc]
  | succ f ih =>
      intro i r hr hf j hj
      by_cases hi : i < e
      · simp only [phase3Iter, hi, if_pos]
        rw [ih (i + 1) _ (by rw [List.length_set]; exact hr) (by omega) j
          (by rw [List.length_set]; exact hj)]
        by_cases hc : i ≤ j ∧ j < e
        · obtain ⟨hc1, hc2⟩ := hc
          by_cases hji : j = i
          · rw [hji, if_neg (by rintro ⟨h1, _⟩; omega), getD_set_self _ _ _ (by omega),
              if_pos ⟨le_refl _, hi⟩]
          · rw [if_pos ⟨by omega, hc2⟩, if_pos ⟨hc1, hc2⟩,
              getD_set_ne _ _ _ _ (fun hcon => hji hcon.symm)]
        · have hji : j ≠ i := by intro hcon; exact hc ⟨by omega, by omega⟩
          rw [if_neg (by rintro ⟨h1, h2⟩; exact hc ⟨by omega, h2⟩), if_neg hc,
            getD_set_ne _ _ _ _ (fun hcon => hji hcon.symm)]
      · have hc : ¬ (i ≤ j ∧ j < e) := by rintro ⟨h1, h2⟩; omega
        simp [phase3Iter, hi, hc]

lemma phase3All_length (bp : List Int) (n chunk : Nat) :
    ∀ k tid r, (phase3All bp n chunk k tid r).length = r.length := by
  intro k
  induction k with
  | zero => intro tid r; rfl
  | succ k ih =>
      intro tid r
      show (phase3All bp n chunk k (tid + 1) _).length = _
      rw [ih, phase3Iter_length]

/-- Characterization of phase 3 over threads `tid, ..., tid+k-1`: every
cell of a processed chunk gains its chunk's block offset `bp[j / chunk]`;
cells before `tid`'s chunk are untouched. -/
lemma phase3All_spec (bp : List Int) (n chunk : Nat) (hchunk : 0 < chunk) :
    ∀ k tid r, r.length = n →
      (∀ j, j < n → j < tid * chunk →
        (phase3All bp n chunk k tid r).getD j 0 = r.getD j 0) ∧
      (∀ j, j < n → tid * chunk ≤ j → j < (tid + k) * chunk →
        (phase3All bp n chunk k tid r).getD j 0 = r.getD j 0 + bp.getD (j / chunk) 0) := by
  intro k
  induction k with
  | zero =>
      intro tid r hr
      refine ⟨fun j hj hjt => rfl, ?_⟩
      intro j hj h1 h2
      rw [Nat.add_zero] at h2
      omega
  | succ k ih =>
      intro tid r hr
      have hmul : (tid + 1) * chunk = tid * chunk + chunk := by ring
      have hunfold : phase3All bp n chunk (k + 1) tid r =
          phase3All bp n chunk k (tid + 1)
            (phase3Iter bp tid (min (tid * chunk + chunk) n) n (tid * chunk) r) := rfl
      rw [hunfold]
      have hlen3 : (phase3Iter bp tid (min (tid * chunk + chunk) n) n (tid * chunk) r).length
          = n := by rw [phase3Iter_length]; exact hr
      obtain ⟨ih1, ih2⟩ := ih (tid + 1)
        (phase3Iter bp tid (min (tid * chunk + chunk) n) n (tid * chunk) r) hlen3
      have hiter := phase3Iter_spec bp tid (min (tid * chunk + chunk) n) n (tid * chunk) r
        (by omega) (by omega)
      constructor
      · intro j hj hjt
        rw [ih1 j hj (by omega), hiter j (by omega), if_neg (by rintro ⟨h1, _⟩; omega)]
      · intro j hj h1 h2
        by_cases hblk : j < (tid + 1) * chunk
        · rw [ih1 j hj (by omega), hiter j (by omega), if_pos ⟨h1, by omega⟩]
          have hdiv : j / chunk = tid := Nat.div_eq_of_lt_le h1 hblk
          rw [hdiv]
        · rw [ih2 j hj (by omega) (by
            have harith : (tid + 1 + k) * chunk = (tid + (k + 1)) * chunk := by ring
            omega)]
          rw [hiter j (by omega), if_neg (by rintro ⟨_, hlt⟩; omega)]

/-! ### Block-decomposition engine: assembled correctness -/

/-- The block-decomposition scan computes the inclusive prefix sum at every
in-range index, for every worker count `w ≥ 1`. -/
lemma parallel_prefix_sum_recursive_getD (arr : List Int) (w : Nat) (hw : 0 < w)
    (i : Nat) (hi : i < arr.length) :
    (parallel_prefix_sum_recursive arr w).getD i 0 =
      ∑ x ∈ Finset.Ico 0 (i + 1), arr.getD x 0 := by
  set n := arr.length with hn
  set chunk := (n + w - 1) / w with hchunkdef
  have hnpos : 0 < n := by omega
  have hchunk : 0 < chunk := by
    rw [hchunkdef]
    apply Nat.div_pos (by omega) hw
  have hcov : n ≤ w * chunk := by
    rw [hchunkdef]
    have h1 := Nat.div_add_mod (n + w - 1) w
    have h2 : (n + w - 1) % w < w := Nat.mod_lt _ hw
    set q := (n + w - 1) / w with hq
    set r := (n + w - 1) % w with hr2
    set p := w * q with hp
    omega
  have hne : ¬ n = 0 := by omega
  have hresult : parallel_prefix_sum_recursive arr w =
      phase3All
        (blockOffsetsIter (phase1All arr n chunk w 0 (List.replicate n 0) []).2 w w 1
          ((List.replicate w 0).set 0 0)) n chunk w 0
        (phase1All arr n chunk w 0 (List.replicate n 0) []).1 := by
    simp only [parallel_prefix_sum_recursive]
    rw [if_neg hne]
  rw [hresult]
  obtain ⟨hp1, hp2, _hp3, hp4, _hp5, hp6⟩ :=
    phase1All_spec arr n chunk hchunk w 0 (List.replicate n 0) []
      (by rw [List.length_replicate])
  set rs := phase1All arr n chunk w 0 (List.replicate n 0) [] with hrs
  have hp4' : ∀ τ, τ < w → rs.2.getD τ 0 =
      ∑ x ∈ Finset.Ico (τ * chunk) (min (τ * chunk + chunk) n), arr.getD x 0 := by
    intro τ hτ
    have := hp4 τ hτ
    simp only [List.length_nil, Nat.zero_add] at this
    exact this
  have hp6' : ∀ j, j < n → rs.1.getD j 0 =
      ∑ x ∈ Finset.Ico ((j / chunk) * chunk) (j + 1), arr.getD x 0 := by
    intro j hj
    have := hp6 j hj (by omega) (by rw [Nat.zero_add]; omega)
    exact this
  set bp := blockOffsetsIter rs.2 w w 1 ((List.replicate w 0).set 0 0) with hbp
  have hbp0len : ((List.replicate w (0 : Int)).set 0 0).length = w := by
    rw [List.length_set, List.length_replicate]
  have hbpspec : ∀ t, t < w → bp.getD t 0 = ∑ x ∈ Finset.Ico 0 t, rs.2.getD x 0 := by
    intro t ht
    refine blockOffsetsIter_spec rs.2 w w 1 _ hbp0len (le_refl 1) (by omega) ?_ t ht
    intro t2 ht2
    have ht20 : t2 = 0 := by omega
    rw [ht20]
    have hget : ((List.replicate w (0 : Int)).set 0 0).getD 0 0 = 0 := by
      rw [getD_set_self _ _ _ (by rw [List.length_replicate]; omega)]
    rw [hget]
    simp
  have hsum : ∀ t, t ≤ w → ∑ x ∈ Finset.Ico 0 t, rs.2.getD x 0 =
      ∑ x ∈ Finset.Ico 0 (min (t * chunk) n), arr.getD x 0 := by
    intro t
    induction t with
    | zero => intro _; simp
    | succ t iht =>
        intro htw
        rw [Finset.sum_Ico_succ_top (Nat.zero_le t), iht (by omega), hp4' t (by omega)]
        have hmul : (t + 1) * chunk = t * chunk + chunk := by ring
        by_cases hcase : n ≤ t * chunk
        · have h1 : min (t * chunk) n = n := by omega
          have h2 : min (t * chunk + chunk) n = n := by omega
          have h3 : min ((t + 1) * chunk) n = n := by omega
          rw [h1, h2, h3]
          have hempty : Finset.Ico (t * chunk) n = ∅ := Finset.Ico_eq_empty (by omega)
          rw [hempty, Finset.sum_empty, add_zero]
        · have h1 : min (t * chunk) n = t * chunk := by omega
          have h3 : min ((t + 1) * chunk) n = min (t * chunk + chunk) n := by omega
          rw [h1, h3]
          exact Finset.sum_Ico_consecutive _ (by omega) (by omega)
  obtain ⟨_hq1, hq2⟩ := phase3All_spec bp n chunk hchunk w 0 rs.1 hp1
  have hdivlt : i / chunk < w := by
    rw [Nat.div_lt_iff_lt_mul hchunk]
    have : w * chunk = chunk * w := by ring
    omega
  have hdivle : (i / chunk) * chunk ≤ i := Nat.div_mul_le_self i chunk
  rw [hq2 i (by omega) (by omega) (by rw [Nat.zero_add]; omega)]
  rw [hp6' i (by omega), hbpspec (i / chunk) hdivlt, hsum (i / chunk) (by omega)]
  have hminb : min ((i / chunk) * chunk) n = (i / chunk) * chunk := by omega
  rw [hminb]
  rw [add_comm]
  exact Finset.sum_Ico_consecutive _ (by omega) (by omega)

lemma parallel_prefix_sum_recursive_length (arr : List Int) (w : Nat) (hw : 0 < w) :
    (parallel_prefix_sum_recursive arr w).length = arr.length := by
  by_cases hne : arr.length = 0
  · simp only [parallel_prefix_sum_recursive]
    rw [if_pos hne, List.length_replicate]
  · set n := arr.length with hn
    set chunk := (n + w - 1) / w with hchunkdef
    have hchunk : 0 < chunk := by
      rw [hchunkdef]
      apply Nat.div_pos (by omega) hw
    have hresult : parallel_prefix_sum_recursive arr w =
        phase3All
          (blockOffsetsIter (phase1All arr n chunk w 0 (List.replicate n 0) []).2 w w 1
            ((List.replicate w 0).set 0 0)) n chunk w 0
          (phase1All arr n chunk w 0 (List.replicate n 0) []).1 := by
      simp only [parallel_prefix_sum_recursive]
      rw [if_neg hne]
    rw [hresult, phase3All_length]
    exact (phase1All_spec arr n chunk hchunk w 0 (List.replicate n 0) []
      (by rw [List.length_replicate])).1

/-! ### Verification function -/

lemma verifyIter_spec (a b : List Int) :
    ∀ f i, a.length ≤ i + f →
      (verifyIter a b f i = true ↔
        ∀ j, i ≤ j → j < a.length → a.getD j 0 = b.getD j 0) := by
  intro f
  induction f with
  | zero =>
      intro i hf
      constructor
      · intro _ j h1 h2
        omega
      · intro _
        rfl
  | succ f ih =>
      intro i hf
      by_cases hi : i < a.length
      · simp only [verifyIter, hi, if_pos]
        by_cases hne : a.getD i 0 ≠ b.getD i 0
        · rw [if_pos hne]
          constructor
          · intro hcon
            exact absurd hcon (by simp)
          · intro hall
            exact absurd (hall i (le_refl i) hi) hne
        · push_neg at hne
          rw [if_neg (fun hcon => hcon hne)]
          rw [ih (i + 1) (by omega)]
          constructor
          · intro hall j h1 h2
            rcases Nat.eq_or_lt_of_le h1 with rfl | h3
            · exact hne
            · exact hall j (by omega) h2
          · intro hall j h1 h2
            exact hall j (by omega) h2
      · have h0 : verifyIter a b (f + 1) i = true := by simp [verifyIter, hi]
        rw [h0]
        constructor
        · intro _ j h1 h2
          omega
        · intro _
          rfl

lemma verifyMismatchIter_spec (a b : List Int) :
    ∀ f i, a.length ≤ i + f →
      ((verifyMismatchIter a b f i = none →
          ∀ j, i ≤ j → j < a.length → a.getD j 0 = b.getD j 0) ∧
       (∀ m, verifyMismatchIter a b f i = some m →
          i ≤ m ∧ m < a.length ∧ a.getD m 0 ≠ b.getD m 0 ∧
            ∀ j, i ≤ j → j < m → a.getD j 0 = b.getD j 0)) := by
  intro f
  induction f with
  | zero =>
      intro i hf
      constructor
      · intro _ j h1 h2
        omega
      · intro m hm
        exact absurd hm (by simp [verifyMismatchIter])
  | succ f ih =>
      intro i hf
      by_cases hi : i < a.length
      · simp only [verifyMismatchIter, hi, if_pos]
        by_cases hne : a.getD i 0 ≠ b.getD i 0
        · rw [if_pos hne]
          constructor
          · intro hcon
            exact absurd hcon (by simp)
          · intro m hm
            have hmi : i = m := Option.some.inj hm
            subst hmi
            exact ⟨le_refl i, hi, hne, fun j h1 h2 => by omega⟩
        · push_neg at hne
          rw [if_neg (fun hcon => hcon hne)]
          obtain ⟨ih1, ih2⟩ := ih (i + 1) (by omega)
          constructor
          · intro hnone j h1 h2
            rcases Nat.eq_or_lt_of_le h1 with rfl | h3
            · exact hne
            · exact ih1 hnone j (by omega) h2
          · intro m hm
            obtain ⟨g1, g2, g3, g4⟩ := ih2 m hm
            refine ⟨by omega, g2, g3, ?_⟩
            intro j h1 h2
            rcases Nat.eq_or_lt_of_le h1 with rfl | h3
            · exact hne
            · exact g4 j (by omega) h2
      · have h0 : verifyMismatchIter a b (f + 1) i = none := by simp [verifyMismatchIter, hi]
        rw [h0]
        constructor
        · intro _ j h1 h2
          omega
        · intro m hm
          exact absurd hm (by simp)

/-! ### Claim theorems for the scan engines and the verifier -/

/-- C1: for every non-empty sequence `S` and every worker count `w ≥ 1`,
both scan strategies return a sequence of the same length as `S` equal to
the sequential inclusive prefix sum, which satisfies `R[0] = S[0]` and
`R[i] = R[i-1] + S[i]` for `1 ≤ i < |S|`. -/
theorem C1_scan_strategies_inclusive_prefix_sum (S : List Int) (h : S ≠ [])
    (w : Nat) (hw : 1 ≤ w) :
    (parallel_prefix_sum_blelloch S).length = S.length ∧
    (parallel_prefix_sum_recursive S w).length = S.length ∧
    parallel_prefix_sum_blelloch S = sequential_prefix_sum S ∧
    parallel_prefix_sum_recursive S w = sequential_prefix_sum S ∧
    (sequential_prefix_sum S).getD 0 0 = S.getD 0 0 ∧
    (∀ i, 1 ≤ i → i < S.length →
      (sequential_prefix_sum S).getD i 0 =
        (sequential_prefix_sum S).getD (i - 1) 0 + S.getD i 0) := by
  have hn : 0 < S.length := List.length_pos.mpr h
  refine ⟨parallel_prefix_sum_blelloch_length S,
    parallel_prefix_sum_recursive_length S w hw, ?_, ?_, ?_, ?_⟩
  · apply list_eq_of_getD _ _
      (by rw [parallel_prefix_sum_blelloch_length, sequential_prefix_sum_length])
    intro i hi
    rw [parallel_prefix_sum_blelloch_length] at hi
    rw [parallel_prefix_sum_blelloch_getD S i hi, sequential_prefix_sum_getD S i hi]
  · apply list_eq_of_getD _ _
      (by rw [parallel_prefix_sum_recursive_length S w hw, sequential_prefix_sum_length])
    intro i hi
    rw [parallel_prefix_sum_recursive_length S w hw] at hi
    rw [parallel_prefix_sum_recursive_getD S w hw i hi, sequential_prefix_sum_getD S i hi]
  · rw [sequential_prefix_sum_getD S 0 hn]
    simp
  · intro i h1 h2
    rw [sequential_prefix_sum_getD S i h2, sequential_prefix_sum_getD S (i - 1) (by omega)]
    have hidx : i - 1 + 1 = i := by omega
    rw [hidx, Finset.sum_Ico_succ_top (Nat.zero_le i)]

/-- Witness for C1 at `S = [1, 2, 3]`, `w = 2`. -/
theorem C1_scan_strategies_inclusive_prefix_sum_witness :
    (parallel_prefix_sum_blelloch [1, 2, 3]).length = ([1, 2, 3] : List Int).length ∧
    (parallel_prefix_sum_recursive [1, 2, 3] 2).length = ([1, 2, 3] : List Int).length ∧
    parallel_prefix_sum_blelloch [1, 2, 3] = sequential_prefix_sum [1, 2, 3] ∧
    parallel_prefix_sum_recursive [1, 2, 3] 2 = sequential_prefix_sum [1, 2, 3] ∧
    (sequential_prefix_sum [1, 2, 3]).getD 0 0 = ([1, 2, 3] : List Int).getD 0 0 ∧
    (∀ i, 1 ≤ i → i < ([1, 2, 3] : List Int).length →
      (sequential_prefix_sum [1, 2, 3]).getD i 0 =
        (sequential_prefix_sum [1, 2, 3]).getD (i - 1) 0 + ([1, 2, 3] : List Int).getD i 0) :=
  C1_scan_strategies_inclusive_prefix_sum [1, 2, 3] (by decide) 2 (by decide)

/-- Helper for C3: the upsweep phase of the Blelloch scan, run for `k`
levels on the padded buffer, leaves in cell `j` the sum of the padded
values over the window of width `2^(min (nu2 (j+1)) k)` ending at `j`. -/
lemma blelloch_upsweep_getD (arr : List Int) (k : Nat) (hk : k ≤ log2_ceil arr.length)
    (j : Nat) (hj : j < 2 ^ log2_ceil arr.length) :
    (upsweepLevels (2 ^ log2_ceil arr.length) 0 k (blelloch_pad arr)).getD j 0 =
      ∑ x ∈ Finset.Ico (j + 1 - 2 ^ (min (nu2 (j + 1)) k)) (j + 1),
        (blelloch_pad arr).getD x 0 := by
  have hinv0 : ∀ j2, j2 < 2 ^ log2_ceil arr.length → (blelloch_pad arr).getD j2 0 =
      ∑ x ∈ Finset.Ico (j2 + 1 - 2 ^ (min (nu2 (j2 + 1)) 0)) (j2 + 1),
        (blelloch_pad arr).getD x 0 := by
    intro j2 hj2
    have hm : min (nu2 (j2 + 1)) 0 = 0 := by omega
    rw [hm, pow_zero]
    have hj1 : j2 + 1 - 1 = j2 := by omega
    rw [hj1]
    simp
  have := upsweepLevels_getD (2 ^ log2_ceil arr.length) (log2_ceil arr.length) rfl
    (fun x => (blelloch_pad arr).getD x 0) k 0 (blelloch_pad arr)
    (blelloch_pad_length arr) (by omega) hinv0 j hj
  rw [Nat.zero_add] at this
  exact this

/-- C3: after upsweep level `d` of the Blelloch scan completes, for every
multiple `i` of `2^(d+1)`, cell `i + 2^(d+1) - 1` of the padded working
buffer holds the sum of the original padded elements on
`[i, i + 2^(d+1))`; after the final level, cell `P-1` holds the sum of all
`P` padded elements. -/
theorem C3_upsweep_level_invariant (arr : List Int) (_h : arr ≠ []) :
    (∀ d, d < log2_ceil arr.length →
      ∀ i, 2 ^ (d + 1) ∣ i → i < 2 ^ log2_ceil arr.length →
        (upsweepLevels (2 ^ log2_ceil arr.length) 0 (d + 1) (blelloch_pad arr)).getD
            (i + 2 ^ (d + 1) - 1) 0 =
          ∑ x ∈ Finset.Ico i (i + 2 ^ (d + 1)), (blelloch_pad arr).getD x 0) ∧
    (upsweepLevels (2 ^ log2_ceil arr.length) 0 (log2_ceil arr.length)
        (blelloch_pad arr)).getD (2 ^ log2_ceil arr.length - 1) 0 =
      ∑ x ∈ Finset.Ico 0 (2 ^ log2_ceil arr.length), (blelloch_pad arr).getD x 0 := by
  set L := log2_ceil arr.length with hL
  set n := 2 ^ L with hn
  have hnpos : 0 < n := Nat.pos_pow_of_pos L (by norm_num)
  have hnn : (2 : Nat) ^ log2_ceil arr.length = n := by rw [hn, hL]
  constructor
  · intro d hd i hdvd hi
    have hsd : 0 < 2 ^ (d + 1) := Nat.pos_pow_of_pos (d + 1) (by norm_num)
    have hdvdn : 2 ^ (d + 1) ∣ n := by rw [hn]; exact pow_dvd_pow 2 (by omega)
    have hin : i + 2 ^ (d + 1) ≤ n := dvd_next hdvd hdvdn hi
    set j := i + 2 ^ (d + 1) - 1 with hj
    have hjn : j < n := by omega
    have hj1 : j + 1 = i + 2 ^ (d + 1) := by omega
    have hnu : d + 1 ≤ nu2 (j + 1) := by
      rw [hj1]
      exact (pow_dvd_iff_le_nu2 _ _ (by omega)).mp (dvd_add hdvd (dvd_refl _))
    have hres := blelloch_upsweep_getD arr (d + 1) (by omega) j hjn
    rw [hres]
    have hm : min (nu2 (j + 1)) (d + 1) = d + 1 := by omega
    rw [hm, hj1]
    have hlow : i + 2 ^ (d + 1) - 2 ^ (d + 1) = i := by omega
    rw [hlow]
  · have hres := blelloch_upsweep_getD arr L (le_refl L) (n - 1) (by omega)
    rw [hres]
    have hn1 : n - 1 + 1 = 2 ^ L := by omega
    rw [hn1, nu2_two_pow]
    have hm : min L L = L := by omega
    rw [hm]
    have hlow : 2 ^ L - 2 ^ L = 0 := by omega
    rw [hlow]

/-- Witness for C3 at `arr = [1, 2, 3]` (padded capacity 4). -/
theorem C3_upsweep_level_invariant_witness :
    (∀ d, d < log2_ceil ([1, 2, 3] : List Int).length →
      ∀ i, 2 ^ (d + 1) ∣ i → i < 2 ^ log2_ceil ([1, 2, 3] : List Int).length →
        (upsweepLevels (2 ^ log2_ceil ([1, 2, 3] : List Int).length) 0 (d + 1)
            (blelloch_pad [1, 2, 3])).getD (i + 2 ^ (d + 1) - 1) 0 =
          ∑ x ∈ Finset.Ico i (i + 2 ^ (d + 1)), (blelloch_pad [1, 2, 3]).getD x 0) ∧
    (upsweepLevels (2 ^ log2_ceil ([1, 2, 3] : List Int).length) 0
        (log2_ceil ([1, 2, 3] : List Int).length)
        (blelloch_pad [1, 2, 3])).getD
        (2 ^ log2_ceil ([1, 2, 3] : List Int).length - 1) 0 =
      ∑ x ∈ Finset.Ico 0 (2 ^ log2_ceil ([1, 2, 3] : List Int).length),
        (blelloch_pad [1, 2, 3]).getD x 0 :=
  C3_upsweep_level_invariant [1, 2, 3] (by decide)

/-- C7: the chunk-partitioned engines are deterministic and independent of
the worker count: any two worker counts `w1, w2 ≥ 1` give identical
output, and repeated invocation on the same input gives identical output. -/
theorem C7_determinism_worker_count_independence (arr : List Int) (w1 w2 : Nat)
    (hw1 : 1 ≤ w1) (hw2 : 1 ≤ w2) :
    parallel_max_sections arr arr.length w1 = parallel_max_sections arr arr.length w2 ∧
    parallel_prefix_sum_recursive arr w1 = parallel_prefix_sum_recursive arr w2 ∧
    parallel_max_sections arr arr.length w1 = parallel_max_sections arr arr.length w1 ∧
    parallel_prefix_sum_recursive arr w1 = parallel_prefix_sum_recursive arr w1 ∧
    parallel_prefix_sum_blelloch arr = parallel_prefix_sum_blelloch arr := by
  refine ⟨?_, ?_, rfl, rfl, rfl⟩
  · rw [parallel_max_sections_eq arr arr.length w1 hw1,
      parallel_max_sections_eq arr arr.length w2 hw2]
  · apply list_eq_of_getD _ _
      (by rw [parallel_prefix_sum_recursive_length arr w1 hw1,
        parallel_prefix_sum_recursive_length arr w2 hw2])
    intro i hi
    rw [parallel_prefix_sum_recursive_length arr w1 hw1] at hi
    rw [parallel_prefix_sum_recursive_getD arr w1 hw1 i hi,
      parallel_prefix_sum_recursive_getD arr w2 hw2 i hi]

/-- Witness for C7 at `arr = [7, -2, 5]`, `w1 = 1`, `w2 = 3`. -/
theorem C7_determinism_worker_count_independence_witness :
    parallel_max_sections [7, -2, 5] ([7, -2, 5] : List Int).length 1 =
      parallel_max_sections [7, -2, 5] ([7, -2, 5] : List Int).length 3 ∧
    parallel_prefix_sum_recursive [7, -2, 5] 1 = parallel_prefix_sum_recursive [7, -2, 5] 3 ∧
    parallel_max_sections [7, -2, 5] ([7, -2, 5] : List Int).length 1 =
      parallel_max_sections [7, -2, 5] ([7, -2, 5] : List Int).length 1 ∧
    parallel_prefix_sum_recursive [7, -2, 5] 1 = parallel_prefix_sum_recursive [7, -2, 5] 1 ∧
    parallel_prefix_sum_blelloch [7, -2, 5] = parallel_prefix_sum_blelloch [7, -2, 5] :=
  C7_determinism_worker_count_independence [7, -2, 5] 1 3 (by decide) (by decide)

/-- C9: `verify_arrays` returns `true` exactly when the two sequences are
equal (elementwise over equal lengths); on equal-length unequal inputs it
returns `false` and the reported mismatch index is the smallest index at
which they differ.  It is a total function: it never aborts or throws. -/
theorem C9_verify_arrays_first_mismatch (a b : List Int) :
    (verify_arrays a b = true ↔ a = b) ∧
    (a.length = b.length → a ≠ b →
      verify_arrays a b = false ∧
      ∃ i, verify_mismatch_index a b = some i ∧ a.getD i 0 ≠ b.getD i 0 ∧
        ∀ j, j < i → a.getD j 0 = b.getD j 0) := by
  have hiff : verify_arrays a b = true ↔ a = b := by
    unfold verify_arrays
    by_cases hl : a.length ≠ b.length
    · rw [if_pos hl]
      constructor
      · intro hcon
        exact absurd hcon (by simp)
      · intro hcon
        exact absurd (congrArg List.length hcon) hl
    · push_neg at hl
      rw [if_neg (fun hcon => hcon hl)]
      rw [verifyIter_spec a b a.length 0 (by omega)]
      constructor
      · intro hall
        exact list_eq_of_getD a b hl (fun i hi => hall i (Nat.zero_le i) hi)
      · intro heq j _ _
        rw [heq]
  refine ⟨hiff, ?_⟩
  intro hl hne
  have hfalse : verify_arrays a b = false := by
    cases hb : verify_arrays a b
    · rfl
    · exact absurd (hiff.mp hb) hne
  refine ⟨hfalse, ?_⟩
  have hm : verify_mismatch_index a b = verifyMismatchIter a b a.length 0 := by
    unfold verify_mismatch_index
    rw [if_neg (fun hcon => hcon hl)]
  obtain ⟨hs1, hs2⟩ := verifyMismatchIter_spec a b a.length 0 (by omega)
  cases hcase : verifyMismatchIter a b a.length 0 with
  | none =>
      exfalso
      apply hne
      exact list_eq_of_getD a b hl (fun i hi => hs1 hcase i (Nat.zero_le i) hi)
  | some m =>
      obtain ⟨g1, g2, g3, g4⟩ := hs2 m hcase
      exact ⟨m, by rw [hm, hcase], g3, fun j hj => g4 j (Nat.zero_le j) hj⟩

/-- Witness for C9 at `a = [1, 2]`, `b = [1, 3]` (first mismatch at 1). -/
theorem C9_verify_arrays_first_mismatch_witness :
    (verify_arrays [1, 2] [1, 3] = true ↔ ([1, 2] : List Int) = [1, 3]) ∧
    (verify_arrays [1, 2] [1, 3] = false ∧
      ∃ i, verify_mismatch_index [1, 2] [1, 3] = some i ∧
        ([1, 2] : List Int).getD i 0 ≠ ([1, 3] : List Int).getD i 0 ∧
        ∀ j, j < i → ([1, 2] : List Int).getD j 0 = ([1, 3] : List Int).getD j 0) :=
  ⟨(C9_verify_arrays_first_mismatch [1, 2] [1, 3]).1,
   (C9_verify_arrays_first_mismatch [1, 2] [1, 3]).2 (by decide) (by decide)⟩

/-- C5: contrary to the specified error handling, `parallel_prefix_sum_blelloch`
performs no overflow check at all: its embedding is a total function with no
failure outcome, returning a plain vector of the input's length for every
input.  At the failing input size `N = 2^30 + 1` the padded capacity it
computes is `2^31`, which exceeds `INT_MAX = 2^31 - 1`, the maximum
representable C++ `int` index (in the C++ source `1 << log_n` overflows
`int` there); no `Overflow` failure is raised before the padded buffer is
built or anywhere else. -/
theorem C5_no_overflow_check_exists :
    blelloch_padded_n (2 ^ 30 + 1) = 2 ^ 31 ∧
    ((2 : Int) ^ 31 > 2 ^ 31 - 1) ∧
    ∀ arr : List Int, (parallel_prefix_sum_blelloch arr).length = arr.length :=
  ⟨by decide, by decide, parallel_prefix_sum_blelloch_length⟩
